import Mathlib

/-!
# segment_go: the probability table and the segmentation analyzer

A shallow embedding of `lib/probability_distribution/probability_distribution.go`
and `lib/analyzer/analyzer.go`.

Modelling conventions

* A Go `string` is a Lean `String`, read as its sequence of code points
  (`[]rune(text)` is `text.data`, `string(runes)` is `String.mk runes`); the
  texts are taken to be valid UTF-8, so the byte-wise order `<` of Go strings is
  the lexicographic order of the code point lists.
* `float64` is a type parameter `F` carrying the operations the code uses
  (`Float64 F`): the literal `0.0`, `math.Inf(-1)`, `+`, `<` and `==`.  Nothing
  is assumed about them unless a theorem lists `Float64.Ordered F` or
  `Float64.AddMonotone F`, the facts of IEEE-754 comparison and addition it
  needs.  `IntFloat` is the instance used to run the code on concrete inputs:
  integers, the two infinities and NaN.  Its sum is the exact integer sum, which
  is the float64 sum for integers below 2^53 in magnitude, the only ones it is
  run on; it neither rounds nor overflows beyond them.
* A Go `map[string]T` is a function `String → Option T`.
* A data file is a `Source`: `none` when `os.Open` fails, else the list of the
  lines the scanner yields.  `strconv.ParseFloat`, `math.Log2`, the subtraction
  and the literal `32.0` are the parameters `Float64Lib F`; `strings.Fields` is
  defined on the code points.
* The memo of `SegmentRecurse` is mutated in place by the source; here it is
  passed in and returned.
* `SegmentRecurse` recurses on a strictly shorter text; the embedding recurses
  on a fuel counter and `Segment` supplies `text.length + 1`, which is shown to
  be enough.
-/

namespace SegmentGo

/-! ## float64 -/

/-- The operations on `float64` used by the analyzer. -/
class Float64 (F : Type) where
  /-- The literal `0.0`. -/
  zero : F
  /-- The value of `math.Inf(-1)`. -/
  negInf : F
  /-- The sum `x + y`. -/
  add : F → F → F
  /-- The comparison `x < y`. -/
  lt : F → F → Bool
  /-- The comparison `x == y`. -/
  eq : F → F → Bool

/-- The test `x != x`, true of NaN only. -/
def Float64.isNaN {F : Type} [Float64 F] (x : F) : Bool := !(Float64.eq x x)

/-- The comparison `x >= y`, which IEEE-754 defines as `x > y || x == y`. -/
def Float64.ge {F : Type} [Float64 F] (x y : F) : Bool := Float64.lt y x || Float64.eq x y

/-- Facts of IEEE-754 comparison: on the values that are not NaN, `<` is a
strict weak order and `==` is its indifference relation. -/
structure Float64.Ordered (F : Type) [Float64 F] : Prop where
  lt_asymm : ∀ x y : F, Float64.lt x y = true → Float64.lt y x = false
  lt_cotrans : ∀ x y z : F, Float64.isNaN y = false →
    Float64.lt x z = true → Float64.lt x y = true ∨ Float64.lt y z = true
  eq_iff : ∀ x y : F, Float64.isNaN x = false → Float64.isNaN y = false →
    (Float64.eq x y = true ↔ (Float64.lt x y = false ∧ Float64.lt y x = false))

/-- The float64 values that are integers, with the infinities and NaN. -/
inductive IntFloat where
  | nan : IntFloat
  | ninf : IntFloat
  | fin (v : Int) : IntFloat
  | pinf : IntFloat
deriving DecidableEq, Repr

/-- IEEE-754 addition on `IntFloat`: the cases of NaN and the infinities, and the
exact sum of two integers (the float64 sum as long as the integers stay below
2^53 in magnitude). -/
def IntFloat.add : IntFloat → IntFloat → IntFloat
  | .nan, _ => .nan
  | _, .nan => .nan
  | .ninf, .pinf => .nan
  | .pinf, .ninf => .nan
  | .ninf, _ => .ninf
  | _, .ninf => .ninf
  | .pinf, _ => .pinf
  | _, .pinf => .pinf
  | .fin x, .fin y => .fin (x + y)

/-- IEEE-754 `<` on `IntFloat`. -/
def IntFloat.lt : IntFloat → IntFloat → Bool
  | .nan, _ => false
  | _, .nan => false
  | .ninf, .ninf => false
  | .ninf, _ => true
  | _, .ninf => false
  | .pinf, _ => false
  | .fin x, .fin y => decide (x < y)
  | .fin _, .pinf => true

/-- IEEE-754 `==` on `IntFloat`. -/
def IntFloat.eq : IntFloat → IntFloat → Bool
  | .nan, _ => false
  | _, .nan => false
  | .ninf, .ninf => true
  | .pinf, .pinf => true
  | .fin x, .fin y => decide (x = y)
  | _, _ => false

instance : Float64 IntFloat where
  zero := .fin 0
  negInf := .ninf
  add := IntFloat.add
  lt := IntFloat.lt
  eq := IntFloat.eq

/-! ## Faults -/

/-- The ways a run of the embedded code can fail to return. -/
inductive Fault where
  /-- The fuel of the embedding ran out (never with the fuel `Segment` gives). -/
  | outOfFuel : Fault
  /-- The run-time panic of `make(Splits, max)` for a negative `max`. -/
  | negativeLen : Fault
deriving DecidableEq, Repr

deriving instance DecidableEq for Except

/-! ## probability_distribution.go -/

/-- The struct `ProbabilityDistribution`: `LogTotal` and the map `table`
(the two path fields play no part in a lookup). -/
structure ProbabilityDistribution (F : Type) where
  LogTotal : F
  table : String → Option F

/-- The method `ProbabilityDistribution.LogProb`: `pd.table[text]`, with
`math.Inf(-1)` in place of the value when the key is absent. -/
def ProbabilityDistribution.LogProb {F : Type} [Float64 F]
    (pd : ProbabilityDistribution F) (text : String) : F × Bool :=
  match pd.table text with
  | some log_prob => (log_prob, true)
  | none => (Float64.negInf, false)

/-! ## analyzer.go -/

/-- The struct `Analyzer`. -/
structure Analyzer (F : Type) where
  ModelPath : String
  ModelName : String
  MaxTokenLength : Int
  UnigramProbabilityDistribution : ProbabilityDistribution F
  BigramProbabilityDistribution : ProbabilityDistribution F

/-- The method `Analyzer.LogProb`. -/
def Analyzer.LogProb {F : Type} [Float64 F] (a : Analyzer F) (token : String) : F × Bool :=
  a.UnigramProbabilityDistribution.LogProb token

/-- The method `Analyzer.LogProbTextGivenPrevious`. -/
def Analyzer.LogProbTextGivenPrevious {F : Type} [Float64 F] (a : Analyzer F)
    (token : String) (previous : String) : F × Bool :=
  let key := previous ++ " " ++ token
  let r := a.BigramProbabilityDistribution.LogProb key
  if r.2 then r
  else a.UnigramProbabilityDistribution.LogProb token

/-- The type `TwoStrings`, `[2]string`. -/
abbrev TwoStrings := String × String

/-- The type `Splits`. -/
abbrev Splits := List TwoStrings

/-- The method `Analyzer.Split`.  `make(Splits, max)` panics when `max` is
negative; otherwise entry `i` is `(runes[0:i+1], runes[i+1:len(runes)])`. -/
def Analyzer.Split {F : Type} (a : Analyzer F) (text : String) : Except Fault Splits :=
  let runes := text.data
  let max : Int := if (runes.length : Int) > a.MaxTokenLength then a.MaxTokenLength
    else (runes.length : Int)
  if max < 0 then .error .negativeLen
  else .ok ((List.range max.toNat).map fun i =>
    (String.mk (runes.take (i + 1)), String.mk (runes.drop (i + 1))))

/-- The struct `ProbTuple`. -/
structure ProbTuple (F : Type) where
  LogProb : F
  Tokens : List String
deriving DecidableEq, Repr

/-- The type `ProbTuples`. -/
abbrev ProbTuples (F : Type) := List (ProbTuple F)

/-- The concatenation `strings.Join(tokens, "")`. -/
def joinTokens (tokens : List String) : String :=
  String.mk (tokens.map String.data).flatten

/-- The order `s < t` of Go strings. -/
def strLt (s t : String) : Bool := decide (s.data < t.data)

/-- The method `ProbTuples.Less`, on the two elements `slice[i]` and `slice[j]`
it reads. -/
def ProbTuple.Less {F : Type} [Float64 F] (x y : ProbTuple F) : Bool :=
  if Float64.eq x.LogProb y.LogProb then
    strLt (joinTokens x.Tokens) (joinTokens y.Tokens)
  else Float64.lt x.LogProb y.LogProb

/-- The loop of `ProbTuples.Max`, carrying `slice[max_i]` in place of `max_i`. -/
def maxLoop {F : Type} [Float64 F] : ProbTuple F → List (ProbTuple F) → ProbTuple F
  | best, [] => best
  | best, x :: rest => if best.Less x then maxLoop x rest else maxLoop best rest

/-- The method `ProbTuples.Max`: the pair `(pt, err)`; for an empty list `pt` is
the zero value and `err` is set. -/
def ProbTuples.Max {F : Type} [Float64 F] (slice : ProbTuples F) :
    ProbTuple F × Option String :=
  match slice with
  | [] => ({ LogProb := Float64.zero, Tokens := [] }, some "Index out of range")
  | first :: _ => (maxLoop first slice, none)

/-- The method `ProbTuple.Combine`. -/
def ProbTuple.Combine {F : Type} [Float64 F] (prevTuple : ProbTuple F) (pfirst : F)
    (first : String) : ProbTuple F :=
  { LogProb := Float64.add pfirst prevTuple.LogProb, Tokens := [first] ++ prevTuple.Tokens }

/-- The memo `map[string]ProbTuple`. -/
abbrev Memo (F : Type) := String → Option (ProbTuple F)

/-- The assignment `memo[text] = probTuple`. -/
def Memo.set {F : Type} (memo : Memo F) (text : String) (probTuple : ProbTuple F) : Memo F :=
  fun k => if k = text then some probTuple else memo k

/-- The loop `for _, twoStrings := range splits` of `SegmentRecurse`, with the
recursive call as a parameter; it returns `pts` and the memo after the loop. -/
def segmentLoop {F : Type} [Float64 F] (a : Analyzer F)
    (recurse : String → String → Int → Memo F → Except Fault (ProbTuple F × Memo F))
    (previous : String) (n : Int) :
    Splits → ProbTuples F → Memo F → Except Fault (ProbTuples F × Memo F)
  | [], pts, memo => .ok (pts, memo)
  | twoStrings :: rest, pts, memo =>
    let first := twoStrings.1
    let rem := twoStrings.2
    let log_p := (a.LogProbTextGivenPrevious first previous).1
    match recurse rem first (n + 1) memo with
    | .error e => .error e
    | .ok (r, memo1) =>
      let current := r.Combine log_p first
      segmentLoop a recurse previous n rest (pts ++ [current]) memo1

/-- The method `Analyzer.SegmentRecurse`; the first argument is the fuel. -/
def Analyzer.SegmentRecurse {F : Type} [Float64 F] (a : Analyzer F) :
    Nat → String → String → Int → Memo F → Except Fault (ProbTuple F × Memo F)
  | 0, _, _, _, _ => .error .outOfFuel
  | fuel + 1, text, previous, n, memo =>
    if text.length = 0 then .ok ({ LogProb := Float64.zero, Tokens := [] }, memo)
    else
      match memo text with
      | some val => .ok (val, memo)
      | none =>
        match a.Split text with
        | .error e => .error e
        | .ok splits =>
          match segmentLoop a (a.SegmentRecurse fuel) previous n splits [] memo with
          | .error e => .error e
          | .ok (pts, memo1) =>
            let probTuple := (ProbTuples.Max pts).1
            .ok (probTuple, memo1.set text probTuple)

/-- The method `Analyzer.Segment`. -/
def Analyzer.Segment {F : Type} [Float64 F] (a : Analyzer F) (text : String) :
    Except Fault (List String) :=
  match a.SegmentRecurse (text.length + 1) text "<S>" 0 (fun _ => none) with
  | .error e => .error e
  | .ok (probTuple, _) => .ok probTuple.Tokens

/-! ## The recursion without a memo -/

/-- The loop of `SegmentRecurse` with the memo taken out. -/
def segmentLoopNoMemo {F : Type} [Float64 F] (a : Analyzer F)
    (recurse : String → String → Int → Except Fault (ProbTuple F))
    (previous : String) (n : Int) :
    Splits → ProbTuples F → Except Fault (ProbTuples F)
  | [], pts => .ok pts
  | twoStrings :: rest, pts =>
    let first := twoStrings.1
    let rem := twoStrings.2
    let log_p := (a.LogProbTextGivenPrevious first previous).1
    match recurse rem first (n + 1) with
    | .error e => .error e
    | .ok r =>
      let current := r.Combine log_p first
      segmentLoopNoMemo a recurse previous n rest (pts ++ [current])

/-- The recursion of `SegmentRecurse` with no memo at all: case 2 and the
store `memo[text] = probTuple` are left out, all else is as in the source. -/
def Analyzer.SegmentRecurseNoMemo {F : Type} [Float64 F] (a : Analyzer F) :
    Nat → String → String → Int → Except Fault (ProbTuple F)
  | 0, _, _, _ => .error .outOfFuel
  | fuel + 1, text, previous, n =>
    if text.length = 0 then .ok { LogProb := Float64.zero, Tokens := [] }
    else
      match a.Split text with
      | .error e => .error e
      | .ok splits =>
        match segmentLoopNoMemo a (a.SegmentRecurseNoMemo fuel) previous n splits [] with
        | .error e => .error e
        | .ok pts => .ok (ProbTuples.Max pts).1

/-! ## The recursion with the memo keyed on (text, previous) -/

/-- A memo keyed on the pair (text, previous). -/
abbrev PairMemo (F : Type) := String × String → Option (ProbTuple F)

/-- The assignment `memo[(text, previous)] = probTuple`. -/
def PairMemo.set {F : Type} (memo : PairMemo F) (text previous : String)
    (probTuple : ProbTuple F) : PairMemo F :=
  fun k => if k = (text, previous) then some probTuple else memo k

/-- The loop of `SegmentRecurse` over a memo keyed on pairs. -/
def segmentLoopPairMemo {F : Type} [Float64 F] (a : Analyzer F)
    (recurse : String → String → Int → PairMemo F → Except Fault (ProbTuple F × PairMemo F))
    (previous : String) (n : Int) :
    Splits → ProbTuples F → PairMemo F → Except Fault (ProbTuples F × PairMemo F)
  | [], pts, memo => .ok (pts, memo)
  | twoStrings :: rest, pts, memo =>
    let first := twoStrings.1
    let rem := twoStrings.2
    let log_p := (a.LogProbTextGivenPrevious first previous).1
    match recurse rem first (n + 1) memo with
    | .error e => .error e
    | .ok (r, memo1) =>
      let current := r.Combine log_p first
      segmentLoopPairMemo a recurse previous n rest (pts ++ [current]) memo1

/-- The recursion of `SegmentRecurse` with the memo keyed on (text, previous):
the lookup and the store use the pair, all else is as in the source. -/
def Analyzer.SegmentRecursePairMemo {F : Type} [Float64 F] (a : Analyzer F) :
    Nat → String → String → Int → PairMemo F → Except Fault (ProbTuple F × PairMemo F)
  | 0, _, _, _, _ => .error .outOfFuel
  | fuel + 1, text, previous, n, memo =>
    if text.length = 0 then .ok ({ LogProb := Float64.zero, Tokens := [] }, memo)
    else
      match memo (text, previous) with
      | some val => .ok (val, memo)
      | none =>
        match a.Split text with
        | .error e => .error e
        | .ok splits =>
          match segmentLoopPairMemo a (a.SegmentRecursePairMemo fuel) previous n splits []
              memo with
          | .error e => .error e
          | .ok (pts, memo1) =>
            let probTuple := (ProbTuples.Max pts).1
            .ok (probTuple, memo1.set text previous probTuple)

/-! ## The recursion with the error of `Max` kept -/

/-- The outcome of a run in which the error returned by `Max` is not dropped. -/
inductive Checked (α : Type) where
  /-- The run returned. -/
  | done (x : α) : Checked α
  /-- The run stopped with a fault. -/
  | fault (e : Fault) : Checked α
  /-- A call of `Max` returned its error. -/
  | maxError : Checked α

/-- The loop of `SegmentRecurse` over `Checked` outcomes. -/
def segmentLoopChecked {F : Type} [Float64 F] (a : Analyzer F)
    (recurse : String → String → Int → Memo F → Checked (ProbTuple F × Memo F))
    (previous : String) (n : Int) :
    Splits → ProbTuples F → Memo F → Checked (ProbTuples F × Memo F)
  | [], pts, memo => .done (pts, memo)
  | twoStrings :: rest, pts, memo =>
    let first := twoStrings.1
    let rem := twoStrings.2
    let log_p := (a.LogProbTextGivenPrevious first previous).1
    match recurse rem first (n + 1) memo with
    | .fault e => .fault e
    | .maxError => .maxError
    | .done (r, memo1) =>
      let current := r.Combine log_p first
      segmentLoopChecked a recurse previous n rest (pts ++ [current]) memo1

/-- The method `SegmentRecurse` with the line `probTuple, _ = pts.Max()` made to
stop with `maxError` when the dropped error is set; all else is as in the
source. -/
def Analyzer.SegmentRecurseChecked {F : Type} [Float64 F] (a : Analyzer F) :
    Nat → String → String → Int → Memo F → Checked (ProbTuple F × Memo F)
  | 0, _, _, _, _ => .fault .outOfFuel
  | fuel + 1, text, previous, n, memo =>
    if text.length = 0 then .done ({ LogProb := Float64.zero, Tokens := [] }, memo)
    else
      match memo text with
      | some val => .done (val, memo)
      | none =>
        match a.Split text with
        | .error e => .fault e
        | .ok splits =>
          match segmentLoopChecked a (a.SegmentRecurseChecked fuel) previous n splits [] memo with
          | .fault e => .fault e
          | .maxError => .maxError
          | .done (pts, memo1) =>
            match ProbTuples.Max pts with
            | (probTuple, none) => .done (probTuple, memo1.set text probTuple)
            | (_, some _) => .maxError

/-- An `Except` outcome read as a `Checked` one. -/
def Checked.ofExcept {α : Type} : Except Fault α → Checked α
  | .ok x => .done x
  | .error e => .fault e

/-! ## Segmentations and their score -/

/-- The score of a token sequence: the sum over its tokens of
`LogProbTextGivenPrevious(token, preceding token)`, the first token being
preceded by `previous`; the sum of no token is `0.0`, and the terms are added
in the order in which `Combine` adds them (a token to the sum of those after
it). -/
def Analyzer.score {F : Type} [Float64 F] (a : Analyzer F) : String → List String → F
  | _, [] => Float64.zero
  | previous, token :: rest =>
    Float64.add (a.LogProbTextGivenPrevious token previous).1 (a.score token rest)

/-- A segmentation of `text` into non-empty tokens of at most `MaxTokenLength`
code points. -/
def Analyzer.IsSegmentation {F : Type} (a : Analyzer F) (text : String)
    (tokens : List String) : Prop :=
  joinTokens tokens = text ∧
    ∀ t ∈ tokens, t ≠ "" ∧ (t.length : Int) ≤ a.MaxTokenLength

/-- A memo entry for `text` is sound when its tokens are a segmentation of
`text`. -/
def Analyzer.MemoSound {F : Type} (a : Analyzer F) (memo : Memo F) : Prop :=
  ∀ text val, memo text = some val → a.IsSegmentation text val.Tokens

/-! ## Concrete tables -/

/-- A table given by its entries, the values being integers. -/
def tableOf (entries : List (String × Int)) : String → Option IntFloat :=
  fun key => (entries.lookup key).map IntFloat.fin

/-- An analyzer with a unigram table for `a`, `b`, `c`, `ab`, `bc` and the one
bigram `b c`.  The files `total.tsv` = 2097152, `frequencies.tsv` = (a 1048576,
b 1048576, c 2048, ab 1048576, bc 2), `2_total.tsv` = 2 and
`2_frequencies.tsv` = (b c 1) give these tables. -/
def abcAnalyzer : Analyzer IntFloat :=
  { ModelPath := "data", ModelName := "abc", MaxTokenLength := 20,
    UnigramProbabilityDistribution :=
      { LogTotal := .fin 21,
        table := tableOf [("a", -1), ("b", -1), ("c", -10), ("ab", -1), ("bc", -20)] },
    BigramProbabilityDistribution :=
      { LogTotal := .fin 1, table := tableOf [("b c", -1)] } }

/-- The analyzer `abcAnalyzer` with `MaxTokenLength` set to `m`. -/
def abcAnalyzerMax (m : Int) : Analyzer IntFloat :=
  { abcAnalyzer with MaxTokenLength := m }

/-! ## Building a table: `New`, `readTotal`, `readFrequencies` -/

/-- The library functions on `float64` used to build a table, and the literal
`32.0`. -/
class Float64Lib (F : Type) where
  /-- The literal `32.0`. -/
  thirtyTwo : F
  /-- The difference `x - y`. -/
  sub : F → F → F
  /-- The function `math.Log2`. -/
  Log2 : F → F
  /-- The function `strconv.ParseFloat(s, 64)`: the value returned and whether
  `err == nil` (on an error the value is `0`, or an infinity for a number out of
  range). -/
  ParseFloat : String → F × Bool

/-- The function `unicode.IsSpace`. -/
def isSpace (c : Char) : Bool :=
  let n := c.toNat
  (9 ≤ n && n ≤ 13) || n = 32 || n = 133 || n = 160 || n = 5760 ||
    (8192 ≤ n && n ≤ 8202) || n = 8232 || n = 8233 || n = 8239 || n = 8287 || n = 12288

/-- The scan of `strings.Fields`: `cur` holds the code points of the field being
read, last first. -/
def fieldsLoop : List Char → List Char → List String
  | [], cur => if cur = [] then [] else [String.mk cur.reverse]
  | c :: rest, cur =>
    if isSpace c then
      if cur = [] then fieldsLoop rest [] else String.mk cur.reverse :: fieldsLoop rest []
    else fieldsLoop rest (c :: cur)

/-- The function `strings.Fields`: the maximal runs of code points that are not
white space. -/
def Fields (s : String) : List String := fieldsLoop s.data []

/-- The function `strings.Join(parts, " ")`. -/
def joinSpace : List String → String
  | [] => ""
  | [p] => p
  | p :: rest => p ++ " " ++ joinSpace rest

/-- A data source: `none` when `os.Open` fails, else the lines the scanner
yields. -/
abbrev Source := Option (List String)

/-- The loop of `readTotal`; the pair carried is `(total, err == nil)`. -/
def readTotalLoop {F : Type} [Float64Lib F] : List String → F × Bool → F × Bool
  | [], r => r
  | text :: rest, _ =>
    let r := Float64Lib.ParseFloat text
    if r.2 then r else readTotalLoop rest r

/-- The function `readTotal`: the pair `(total, err == nil)`. -/
def readTotal {F : Type} [Float64 F] [Float64Lib F] (total_file : Source) : F × Bool :=
  match total_file with
  | none => (Float64.zero, false)
  | some lines => readTotalLoop lines (Float64.zero, true)

/-- The assignment `pd.table[key] = value`. -/
def tableSet {F : Type} (table : String → Option F) (key : String) (value : F) :
    String → Option F :=
  fun k => if k = key then some value else table k

/-- The loop of `readFrequencies`, from the table so far to the table at the
end. -/
def readFrequenciesLoop {F : Type} [Float64Lib F] (LogTotal : F) :
    List String → (String → Option F) → (String → Option F)
  | [], table => table
  | text :: rest, table =>
    let parts := Fields text
    if parts.length ≥ 2 then
      let key := joinSpace (parts.take (parts.length - 1))
      let r := Float64Lib.ParseFloat (parts.getD (parts.length - 1) "")
      if r.2 then
        readFrequenciesLoop LogTotal rest
          (tableSet table key (Float64Lib.sub (Float64Lib.Log2 r.1) LogTotal))
      else table
    else readFrequenciesLoop LogTotal rest table

/-- The method `readFrequencies`, as the table it leaves in `pd.table` (the
error it returns is dropped by `New`). -/
def readFrequencies {F : Type} [Float64Lib F] (data_file : Source) (LogTotal : F)
    (table : String → Option F) : String → Option F :=
  match data_file with
  | none => table
  | some lines => readFrequenciesLoop LogTotal lines table

/-- The function `New` of `probability_distribution.go`. -/
def ProbabilityDistribution.New {F : Type} [Float64 F] [Float64Lib F]
    (total_file data_file : Source) : ProbabilityDistribution F :=
  let total : F := (readTotal total_file).1
  let LogTotal : F :=
    if Float64.eq total Float64.zero then Float64Lib.thirtyTwo else Float64Lib.Log2 total
  { LogTotal := LogTotal, table := readFrequencies data_file LogTotal (fun _ => none) }

/-- A line that stops the scan of `readFrequencies`: at least 2 fields and a
last field that `ParseFloat` rejects. -/
def stopsScan (F : Type) [Float64Lib F] (text : String) : Bool :=
  decide ((Fields text).length ≥ 2) &&
    !(Float64Lib.ParseFloat (F := F) ((Fields text).getD ((Fields text).length - 1) "")).2

/-- The key of a line: all fields but the last, joined by single spaces. -/
def lineKey (text : String) : String :=
  joinSpace ((Fields text).take ((Fields text).length - 1))

/-- The frequency of a line: the value `ParseFloat` gives for its last field. -/
def lineFreq (F : Type) [Float64Lib F] (text : String) : F :=
  (Float64Lib.ParseFloat (F := F) ((Fields text).getD ((Fields text).length - 1) "")).1

/-! ### The library functions on `IntFloat` -/

/-- The integer part of the base 2 logarithm, by halving. -/
def floorLog2 : Nat → Nat → Nat
  | 0, _ => 0
  | fuel + 1, v => if v < 2 then 0 else floorLog2 fuel (v / 2) + 1

/-- The function `math.Log2` on `IntFloat`; exact on the powers of two, the only
positive integers whose logarithm is an integer, and rounded down elsewhere. -/
def IntFloat.log2 : IntFloat → IntFloat
  | .nan => .nan
  | .ninf => .nan
  | .pinf => .pinf
  | .fin v => if v < 0 then .nan else if v = 0 then .ninf else .fin (floorLog2 v.toNat v.toNat)

/-- IEEE-754 subtraction on `IntFloat`. -/
def IntFloat.sub : IntFloat → IntFloat → IntFloat
  | x, .nan => IntFloat.add x .nan
  | x, .ninf => IntFloat.add x .pinf
  | x, .pinf => IntFloat.add x .ninf
  | x, .fin v => IntFloat.add x (.fin (-v))

/-- The value of a string of decimal digits. -/
def digitsValue : List Char → Nat → Option Nat
  | [], acc => some acc
  | c :: rest, acc =>
    if c.isDigit then digitsValue rest (10 * acc + (c.toNat - 48)) else none

/-- The function `strconv.ParseFloat` on the strings of decimal digits; any other
string is reported as an error, with value `0`. -/
def IntFloat.parse (s : String) : IntFloat × Bool :=
  match s.data with
  | [] => (.fin 0, false)
  | c :: rest =>
    match digitsValue (c :: rest) 0 with
    | some v => (.fin (v : Int), true)
    | none => (.fin 0, false)

instance : Float64Lib IntFloat where
  thirtyTwo := .fin 32
  sub := IntFloat.sub
  Log2 := IntFloat.log2
  ParseFloat := IntFloat.parse

/-! ## Order and addition -/

/-- Monotonicity of IEEE-754 addition: when neither sum is NaN, `x >= y` gives
`a + x >= a + y` (rounding to nearest is monotone, also at the infinities). -/
def Float64.AddMonotone (F : Type) [Float64 F] : Prop :=
  ∀ a x y : F, Float64.isNaN (Float64.add a x) = false →
    Float64.isNaN (Float64.add a y) = false →
    Float64.ge x y = true → Float64.ge (Float64.add a x) (Float64.add a y) = true

/-- The values of `IntFloat` other than NaN and positive infinity. -/
def IntFloat.Proper (x : IntFloat) : Prop := x ≠ .nan ∧ x ≠ .pinf

/-- The sum of the unigram log-probabilities of a token sequence, the terms
added in the order in which `Combine` adds them. -/
def Analyzer.unigramScore {F : Type} [Float64 F] (a : Analyzer F) : List String → F
  | [] => Float64.zero
  | token :: rest => Float64.add (a.LogProb token).1 (a.unigramScore rest)

/-- Every value of the table is in `S`. -/
def ProbabilityDistribution.ValuesIn {F : Type} (pd : ProbabilityDistribution F)
    (S : F → Prop) : Prop :=
  ∀ key v, pd.table key = some v → S v

/-- An analyzer with the unigram table of `abcAnalyzer` and a bigram table
without entries. -/
def unigramAnalyzer : Analyzer IntFloat :=
  { abcAnalyzer with
    BigramProbabilityDistribution := { LogTotal := .fin 32, table := fun _ => none } }

/-- The memo of the test `TestSegmentRecurseWhenMemoized`: the one entry
`the`, with LogProb -6 and tokens `the`. -/
def theMemo : Memo IntFloat :=
  fun k => if k = "the" then some ⟨.fin (-6), ["the"]⟩ else none

/-- A memo with an entry for the empty string and one for `c`. -/
def oddMemo : Memo IntFloat :=
  fun k => if k = "" then some ⟨.fin 5, ["x"]⟩
    else if k = "c" then some ⟨.fin 7, ["c"]⟩ else none

/-- The entries a run keeps: every key that was present before, and every key
of at least `L` code points, has in `memo1` the entry it had in `memo`. -/
def Memo.Kept {F : Type} (L : Nat) (memo memo1 : Memo F) : Prop :=
  ∀ k, (memo k ≠ none ∨ L ≤ k.length) → memo1 k = memo k

/-- A best segmentation of `text` by unigram score: a tuple whose tokens are a
segmentation of `text`, whose LogProb is their unigram score, and `>=` the
unigram score of every segmentation of `text`. -/
def Analyzer.IsBest {F : Type} [Float64 F] (a : Analyzer F) (text : String)
    (v : ProbTuple F) : Prop :=
  a.IsSegmentation text v.Tokens ∧ v.LogProb = a.unigramScore v.Tokens ∧
    ∀ tokens, a.IsSegmentation text tokens →
      Float64.ge v.LogProb (a.unigramScore tokens) = true

/-- Every memo entry is a best segmentation of its key. -/
def Analyzer.MemoBest {F : Type} [Float64 F] (a : Analyzer F) (memo : Memo F) : Prop :=
  ∀ text val, memo text = some val → a.IsBest text val

/-- The candidate list `pts` that `SegmentRecurse` builds for `text` in case 3,
the recursive calls running with `fuel`; empty when `Split` or a recursive call
does not return. -/
def Analyzer.candidates {F : Type} [Float64 F] (a : Analyzer F) (fuel : Nat)
    (text previous : String) (n : Int) (memo : Memo F) : ProbTuples F :=
  match a.Split text with
  | .error _ => []
  | .ok splits =>
    match segmentLoop a (a.SegmentRecurse fuel) previous n splits [] memo with
    | .error _ => []
    | .ok (pts, _) => pts

/-- The store `pd.table[key] = math.Log2(freq) - LogTotal` for the key and the
frequency of one line. -/
def storeLine {F : Type} [Float64Lib F] (LogTotal : F) (table : String → Option F)
    (text : String) : String → Option F :=
  tableSet table (lineKey text)
    (Float64Lib.sub (Float64Lib.Log2 (lineFreq F text)) LogTotal)

/-- The lines `readFrequencies` stores, in order: those before the first line
that stops the scan, less the lines with fewer than 2 fields. -/
def storedLines (F : Type) [Float64Lib F] (lines : List String) : List String :=
  (lines.takeWhile (fun l => !stopsScan F l)).filter
    (fun l => decide ((Fields l).length ≥ 2))

/-- An analyzer with positive table values, as `New` stores them when the total
is missing (LogTotal 32.0) and a count exceeds 2^32: `frequencies.tsv` =
(a 17179869184, b 2147483648, ab 4294967296), no `total.tsv`, no bigram data. -/
def positiveAnalyzer : Analyzer IntFloat :=
  { ModelPath := "data", ModelName := "positive", MaxTokenLength := 20,
    UnigramProbabilityDistribution :=
      { LogTotal := .fin 32, table := tableOf [("a", 2), ("b", -1), ("ab", 0)] },
    BigramProbabilityDistribution := { LogTotal := .fin 32, table := fun _ => none } }

/-- An analyzer in which the two segmentations `a`, `b` and `ab` of the text `ab`
have the same score -2: unigram table a -> -1, b -> -1, ab -> -2, no bigram. -/
def tieAnalyzer : Analyzer IntFloat :=
  { ModelPath := "data", ModelName := "tie", MaxTokenLength := 20,
    UnigramProbabilityDistribution :=
      { LogTotal := .fin 2, table := tableOf [("a", -1), ("b", -1), ("ab", -2)] },
    BigramProbabilityDistribution := { LogTotal := .fin 32, table := fun _ => none } }

/-! # Theorems -/

/-! ## Lookup -/

theorem logProb_of_mem {F : Type} [Float64 F] (pd : ProbabilityDistribution F) (key : String)
    (v : F) (h : pd.table key = some v) : pd.LogProb key = (v, true) := by
  simp [ProbabilityDistribution.LogProb, h]

theorem logProb_of_not_mem {F : Type} [Float64 F] (pd : ProbabilityDistribution F)
    (key : String) (h : pd.table key = none) : pd.LogProb key = (Float64.negInf, false) := by
  simp [ProbabilityDistribution.LogProb, h]

/-- C10: `LogProb(key)` returns the stored value and `true` when `key` is an
entry of the table, negative infinity and `false` when it is not, and the
found-flag is `false` exactly when the key is absent. -/
theorem logProb_exact_match {F : Type} [Float64 F] (pd : ProbabilityDistribution F)
    (key : String) :
    (∀ v, pd.table key = some v → pd.LogProb key = (v, true)) ∧
    (pd.table key = none → pd.LogProb key = (Float64.negInf, false)) ∧
    ((pd.LogProb key).2 = false ↔ pd.table key = none) := by
  refine ⟨fun v h => logProb_of_mem pd key v h, fun h => logProb_of_not_mem pd key h, ?_⟩
  cases h : pd.table key with
  | none => simp [logProb_of_not_mem pd key h]
  | some v => simp [logProb_of_mem pd key v h]

/-- C7: `LogProbTextGivenPrevious(token, previous)` returns `(v, true)` when the
key `previous + " " + token` is in the bigram table with value `v`, whatever
the unigram table holds; otherwise it returns what `LogProb(token)` returns,
value and found-flag both, which is negative infinity and `false` for a token
absent from the unigram table too. -/
theorem logProbTextGivenPrevious_backoff {F : Type} [Float64 F] (a : Analyzer F)
    (token previous : String) :
    (∀ v, a.BigramProbabilityDistribution.table (previous ++ " " ++ token) = some v →
      a.LogProbTextGivenPrevious token previous = (v, true)) ∧
    (a.BigramProbabilityDistribution.table (previous ++ " " ++ token) = none →
      a.LogProbTextGivenPrevious token previous = a.LogProb token) ∧
    (a.BigramProbabilityDistribution.table (previous ++ " " ++ token) = none →
      a.UnigramProbabilityDistribution.table token = none →
      a.LogProbTextGivenPrevious token previous = (Float64.negInf, false)) := by
  refine ⟨fun v h => ?_, fun h => ?_, fun h hu => ?_⟩
  · simp [Analyzer.LogProbTextGivenPrevious, logProb_of_mem _ _ v h]
  · simp [Analyzer.LogProbTextGivenPrevious, Analyzer.LogProb, logProb_of_not_mem _ _ h]
  · simp [Analyzer.LogProbTextGivenPrevious, logProb_of_not_mem _ _ h,
      logProb_of_not_mem _ _ hu]

/-! ## Split -/

theorem split_eq {F : Type} (a : Analyzer F) (text : String) (hm : 0 ≤ a.MaxTokenLength) :
    a.Split text = .ok ((List.range (min text.data.length a.MaxTokenLength.toNat)).map
      fun i => (String.mk (text.data.take (i + 1)), String.mk (text.data.drop (i + 1)))) := by
  unfold Analyzer.Split
  have hmax : (if (text.data.length : Int) > a.MaxTokenLength then a.MaxTokenLength
      else (text.data.length : Int)) = ((min text.data.length a.MaxTokenLength.toNat : Nat) : Int) := by
    split <;> omega
  have hneg : ¬ (((min text.data.length a.MaxTokenLength.toNat : Nat) : Int) < 0) := by omega
  simp only [hmax, if_neg hneg, Int.toNat_ofNat]

/-- C4: for `MaxTokenLength = m >= 0` and a text of `N` code points, `Split`
returns exactly `min(N, m)` pairs; for each `k` in `1..min(N, m)` the `k`-th pair
is (the first `k` code points, the remaining `N - k`), so its head has `k` code
points, its tail `N - k`, and head and tail concatenated give the text. -/
theorem split_pairs {F : Type} (a : Analyzer F) (text : String)
    (hm : 0 ≤ a.MaxTokenLength) :
    ∃ splits, a.Split text = .ok splits ∧
      (splits.length : Int) = min (text.length : Int) a.MaxTokenLength ∧
      ∀ k : Nat, 1 ≤ k → (k : Int) ≤ min (text.length : Int) a.MaxTokenLength →
        splits[k - 1]? = some (String.mk (text.data.take k), String.mk (text.data.drop k)) ∧
        (String.mk (text.data.take k)).length = k ∧
        (String.mk (text.data.drop k)).length = text.length - k ∧
        String.mk (text.data.take k) ++ String.mk (text.data.drop k) = text := by
  refine ⟨_, split_eq a text hm, ?_, ?_⟩
  · simp only [List.length_map, List.length_range, String.length]
    omega
  · intro k hk1 hk
    simp only [String.length] at hk
    have hk2 : k - 1 < min text.data.length a.MaxTokenLength.toNat := by omega
    have hk3 : k - 1 + 1 = k := by omega
    refine ⟨?_, ?_, ?_, ?_⟩
    · rw [List.getElem?_map, List.getElem?_range hk2, Option.map_some', hk3]
    · simp only [String.length, List.length_take]; omega
    · simp only [String.length, List.length_drop]
    · apply String.ext
      simp

/-! ## IEEE-754 comparison -/

theorem intFloat_ordered : Float64.Ordered IntFloat where
  lt_asymm := by
    intro x y h
    cases x <;> cases y <;> simp_all [Float64.lt, IntFloat.lt]
    omega
  lt_cotrans := by
    intro x y z hy h
    cases x <;> cases y <;> cases z <;>
      simp_all [Float64.lt, Float64.isNaN, Float64.eq, IntFloat.lt, IntFloat.eq]
    all_goals omega
  eq_iff := by
    intro x y hx hy
    cases x <;> cases y <;>
      simp_all [Float64.lt, Float64.isNaN, Float64.eq, IntFloat.lt, IntFloat.eq]
    all_goals omega

section Order

variable {F : Type} [Float64 F]

theorem Float64.Ordered.eq_symm (ho : Float64.Ordered F) {x y : F}
    (hx : Float64.isNaN x = false) (hy : Float64.isNaN y = false)
    (h : Float64.eq x y = true) : Float64.eq y x = true := by
  have := (ho.eq_iff x y hx hy).1 h
  exact (ho.eq_iff y x hy hx).2 ⟨this.2, this.1⟩

theorem Float64.Ordered.lt_of_eq_left (ho : Float64.Ordered F) {x y z : F}
    (hx : Float64.isNaN x = false) (hy : Float64.isNaN y = false)
    (h : Float64.eq x y = true) (hlt : Float64.lt x z = true) : Float64.lt y z = true := by
  have hxy := (ho.eq_iff x y hx hy).1 h
  rcases ho.lt_cotrans x y z hy hlt with h1 | h1
  · rw [hxy.1] at h1; cases h1
  · exact h1

theorem Float64.Ordered.lt_of_eq_right (ho : Float64.Ordered F) {x y z : F}
    (hx : Float64.isNaN x = false) (hy : Float64.isNaN y = false)
    (h : Float64.eq x y = true) (hlt : Float64.lt z x = true) : Float64.lt z y = true := by
  have hxy := (ho.eq_iff x y hx hy).1 h
  rcases ho.lt_cotrans z y x hy hlt with h1 | h1
  · exact h1
  · rw [hxy.2] at h1; cases h1

theorem Float64.Ordered.eq_trans (ho : Float64.Ordered F) {x y z : F}
    (hx : Float64.isNaN x = false) (hy : Float64.isNaN y = false)
    (hz : Float64.isNaN z = false)
    (h1 : Float64.eq x y = true) (h2 : Float64.eq y z = true) : Float64.eq x z = true := by
  have hyz := (ho.eq_iff y z hy hz).1 h2
  refine (ho.eq_iff x z hx hz).2 ⟨?_, ?_⟩
  · cases hc : Float64.lt x z with
    | false => rfl
    | true => rw [ho.lt_of_eq_left hx hy h1 hc] at hyz; cases hyz.1
  · cases hc : Float64.lt z x with
    | false => rfl
    | true => rw [ho.lt_of_eq_right hx hy h1 hc] at hyz; cases hyz.2

theorem strLt_asymm {s t : String} (h : strLt s t = true) : strLt t s = false := by
  simp only [strLt, decide_eq_true_eq, decide_eq_false_iff_not] at *
  exact not_lt_of_gt h

theorem strLt_cotrans {s u : String} (t : String) (h : strLt s u = true) :
    strLt s t = true ∨ strLt t u = true := by
  simp only [strLt, decide_eq_true_eq] at *
  exact h.lt_or_lt t.data

theorem less_asymm (ho : Float64.Ordered F) {x y : ProbTuple F}
    (hx : Float64.isNaN x.LogProb = false) (hy : Float64.isNaN y.LogProb = false)
    (h : x.Less y = true) : y.Less x = false := by
  unfold ProbTuple.Less at *
  cases hxy : Float64.eq x.LogProb y.LogProb with
  | true =>
    rw [hxy] at h
    rw [ho.eq_symm hx hy hxy]
    simpa using strLt_asymm (by simpa using h)
  | false =>
    rw [hxy] at h
    have hlt : Float64.lt x.LogProb y.LogProb = true := by simpa using h
    have hyx : Float64.eq y.LogProb x.LogProb = false := by
      cases hc : Float64.eq y.LogProb x.LogProb with
      | false => rfl
      | true => rw [ho.eq_symm hy hx hc] at hxy; cases hxy
    rw [hyx]
    simpa using ho.lt_asymm _ _ hlt

theorem less_cotrans (ho : Float64.Ordered F) {x y z : ProbTuple F}
    (hx : Float64.isNaN x.LogProb = false) (hy : Float64.isNaN y.LogProb = false)
    (hz : Float64.isNaN z.LogProb = false)
    (h : x.Less z = true) : x.Less y = true ∨ y.Less z = true := by
  unfold ProbTuple.Less at *
  cases hxy : Float64.eq x.LogProb y.LogProb with
  | true =>
    cases hxz : Float64.eq x.LogProb z.LogProb with
    | true =>
      rw [hxz] at h
      have hyz : Float64.eq y.LogProb z.LogProb = true :=
        ho.eq_trans hy hx hz (ho.eq_symm hx hy hxy) hxz
      rw [hyz]
      simpa using strLt_cotrans (joinTokens y.Tokens) (by simpa using h)
    | false =>
      rw [hxz] at h
      have hlt : Float64.lt x.LogProb z.LogProb = true := by simpa using h
      have hyz := ho.lt_of_eq_left hx hy hxy hlt
      have hne : Float64.eq y.LogProb z.LogProb = false := by
        cases hc : Float64.eq y.LogProb z.LogProb with
        | false => rfl
        | true => rw [((ho.eq_iff _ _ hy hz).1 hc).1] at hyz; cases hyz
      right
      rw [hne]
      simpa using hyz
  | false =>
    have hcases : Float64.lt x.LogProb y.LogProb = true ∨ Float64.lt y.LogProb x.LogProb = true := by
      by_contra hc
      push_neg at hc
      have := (ho.eq_iff _ _ hx hy).2 ⟨by simpa using hc.1, by simpa using hc.2⟩
      rw [this] at hxy; cases hxy
    rcases hcases with h1 | h1
    · left; simpa using h1
    · right
      have hyz : Float64.lt y.LogProb z.LogProb = true := by
        cases hxz : Float64.eq x.LogProb z.LogProb with
        | true => exact ho.lt_of_eq_right hx hz hxz h1
        | false =>
          rw [hxz] at h
          have hlt : Float64.lt x.LogProb z.LogProb = true := by simpa using h
          rcases ho.lt_cotrans _ _ _ hz h1 with h3 | h3
          · exact h3
          · rw [ho.lt_asymm _ _ hlt] at h3; cases h3
      have hne : Float64.eq y.LogProb z.LogProb = false := by
        cases hc : Float64.eq y.LogProb z.LogProb with
        | false => rfl
        | true => rw [((ho.eq_iff _ _ hy hz).1 hc).1] at hyz; cases hyz
      rw [hne]
      simpa using hyz

end Order

/-! ## Max -/

section MaxLemmas

variable {F : Type} [Float64 F]

theorem maxLoop_mem (best : ProbTuple F) (l : List (ProbTuple F)) :
    maxLoop best l = best ∨ maxLoop best l ∈ l := by
  induction l generalizing best with
  | nil => exact Or.inl rfl
  | cons x rest ih =>
    unfold maxLoop
    split
    · rcases ih x with h | h
      · exact Or.inr (by rw [h]; exact List.mem_cons_self _ _)
      · exact Or.inr (List.mem_cons_of_mem _ h)
    · rcases ih best with h | h
      · exact Or.inl h
      · exact Or.inr (List.mem_cons_of_mem _ h)

theorem less_irrefl (ho : Float64.Ordered F) {x : ProbTuple F}
    (hx : Float64.isNaN x.LogProb = false) : x.Less x = false := by
  cases h : x.Less x with
  | false => rfl
  | true => rw [less_asymm ho hx hx h] at h; cases h

theorem maxLoop_not_less (ho : Float64.Ordered F) (best : ProbTuple F)
    (l : List (ProbTuple F)) (hbest : Float64.isNaN best.LogProb = false)
    (hl : ∀ t ∈ l, Float64.isNaN t.LogProb = false) :
    Float64.isNaN (maxLoop best l).LogProb = false ∧
      (maxLoop best l).Less best = false ∧ ∀ t ∈ l, (maxLoop best l).Less t = false := by
  induction l generalizing best with
  | nil => exact ⟨hbest, less_irrefl ho hbest, fun t ht => absurd ht (List.not_mem_nil t)⟩
  | cons x rest ih =>
    have hx : Float64.isNaN x.LogProb = false := hl x (List.mem_cons_self _ _)
    have hrest : ∀ t ∈ rest, Float64.isNaN t.LogProb = false :=
      fun t ht => hl t (List.mem_cons_of_mem _ ht)
    unfold maxLoop
    split
    · rename_i hless
      obtain ⟨hr, hrx, hrrest⟩ := ih x hx hrest
      refine ⟨hr, ?_, ?_⟩
      · rcases less_cotrans ho hbest hr hx hless with h | h
        · exact less_asymm ho hbest hr h
        · rw [hrx] at h; cases h
      · intro t ht
        rcases List.mem_cons.1 ht with rfl | ht
        · exact hrx
        · exact hrrest t ht
    · rename_i hless
      obtain ⟨hr, hrb, hrrest⟩ := ih best hbest hrest
      refine ⟨hr, hrb, ?_⟩
      intro t ht
      rcases List.mem_cons.1 ht with rfl | ht
      · cases hc : (maxLoop best rest).Less t with
        | false => rfl
        | true =>
          rcases less_cotrans ho hr hbest hx hc with h | h
          · rw [hrb] at h; cases h
          · exact absurd h hless
      · exact hrrest t ht

theorem max_mem (slice : ProbTuples F) (hne : slice ≠ []) :
    (ProbTuples.Max slice).2 = none ∧ (ProbTuples.Max slice).1 ∈ slice := by
  cases slice with
  | nil => exact absurd rfl hne
  | cons first rest =>
    refine ⟨rfl, ?_⟩
    show maxLoop first (first :: rest) ∈ first :: rest
    rcases maxLoop_mem first (first :: rest) with h | h
    · rw [h]; exact List.mem_cons_self _ _
    · exact h

theorem max_not_less (ho : Float64.Ordered F) (slice : ProbTuples F)
    (hnan : ∀ t ∈ slice, Float64.isNaN t.LogProb = false) :
    ∀ t ∈ slice, (ProbTuples.Max slice).1.Less t = false := by
  cases slice with
  | nil => intro t ht; exact absurd ht (List.not_mem_nil t)
  | cons first rest =>
    intro t ht
    exact (maxLoop_not_less ho first (first :: rest) (hnan first (List.mem_cons_self _ _))
      hnan).2.2 t ht

theorem ge_of_not_less (ho : Float64.Ordered F) {x y : ProbTuple F}
    (hx : Float64.isNaN x.LogProb = false) (hy : Float64.isNaN y.LogProb = false)
    (h : x.Less y = false) : Float64.ge x.LogProb y.LogProb = true := by
  unfold ProbTuple.Less at h
  unfold Float64.ge
  cases hxy : Float64.eq x.LogProb y.LogProb with
  | true => simp
  | false =>
    rw [hxy] at h
    have hlt : Float64.lt x.LogProb y.LogProb = false := by simpa using h
    cases hyx : Float64.lt y.LogProb x.LogProb with
    | true => simp
    | false =>
      rw [(ho.eq_iff _ _ hx hy).2 ⟨hlt, hyx⟩] at hxy
      cases hxy

end MaxLemmas

/-- C6: for a non-empty list of ProbTuples none of whose LogProb is NaN, `Max`
returns without error an element of the list whose LogProb is `>=` the LogProb
of every element of the list. -/
theorem max_returns_maximum {F : Type} [Float64 F] (ho : Float64.Ordered F)
    (slice : ProbTuples F) (hne : slice ≠ [])
    (hnan : ∀ t ∈ slice, Float64.isNaN t.LogProb = false) :
    (ProbTuples.Max slice).2 = none ∧ (ProbTuples.Max slice).1 ∈ slice ∧
      ∀ t ∈ slice, Float64.ge (ProbTuples.Max slice).1.LogProb t.LogProb = true := by
  obtain ⟨herr, hmem⟩ := max_mem slice hne
  refine ⟨herr, hmem, fun t ht => ?_⟩
  exact ge_of_not_less ho (hnan _ hmem) (hnan t ht) (max_not_less ho slice hnan t ht)

/-- C6, at the list with LogProbs -49, -33, -13: `Max` returns the -13 tuple. -/
theorem max_returns_maximum_witness :
    Float64.Ordered IntFloat ∧
    ([⟨.fin (-49), []⟩, ⟨.fin (-33), []⟩, ⟨.fin (-13), []⟩] : ProbTuples IntFloat) ≠ [] ∧
    (ProbTuples.Max [⟨.fin (-49), []⟩, ⟨.fin (-33), []⟩, ⟨.fin (-13), []⟩]).1
      = ⟨IntFloat.fin (-13), []⟩ ∧
    ((ProbTuples.Max [⟨IntFloat.fin (-49), []⟩, ⟨.fin (-33), []⟩, ⟨.fin (-13), []⟩]).2 = none ∧
      (ProbTuples.Max [⟨IntFloat.fin (-49), []⟩, ⟨.fin (-33), []⟩, ⟨.fin (-13), []⟩]).1 ∈
        ([⟨.fin (-49), []⟩, ⟨.fin (-33), []⟩, ⟨.fin (-13), []⟩] : ProbTuples IntFloat) ∧
      ∀ t ∈ ([⟨.fin (-49), []⟩, ⟨.fin (-33), []⟩, ⟨.fin (-13), []⟩] : ProbTuples IntFloat),
        Float64.ge
          (ProbTuples.Max [⟨IntFloat.fin (-49), []⟩, ⟨.fin (-33), []⟩, ⟨.fin (-13), []⟩]).1.LogProb
          t.LogProb = true) :=
  ⟨intFloat_ordered, by decide, by decide,
    max_returns_maximum intFloat_ordered _ (by decide) (by decide)⟩

/-- C5, as the code has it: for a non-empty list of ProbTuples none of whose
LogProb is NaN, `Max` returns an element with the maximum LogProb, and no element
with that same LogProb has a concatenated token string lexicographically larger
than that of the returned one: among the candidates tied for the maximum the
lexicographically largest wins. -/
theorem max_tie_break_largest {F : Type} [Float64 F] (ho : Float64.Ordered F)
    (slice : ProbTuples F) (hne : slice ≠ [])
    (hnan : ∀ t ∈ slice, Float64.isNaN t.LogProb = false) :
    (ProbTuples.Max slice).1 ∈ slice ∧
      (∀ t ∈ slice, Float64.ge (ProbTuples.Max slice).1.LogProb t.LogProb = true) ∧
      ∀ t ∈ slice, Float64.eq (ProbTuples.Max slice).1.LogProb t.LogProb = true →
        strLt (joinTokens (ProbTuples.Max slice).1.Tokens) (joinTokens t.Tokens) = false := by
  obtain ⟨_, hmem⟩ := max_mem slice hne
  refine ⟨hmem, fun t ht => ?_, fun t ht heq => ?_⟩
  · exact ge_of_not_less ho (hnan _ hmem) (hnan t ht) (max_not_less ho slice hnan t ht)
  · have h := max_not_less ho slice hnan t ht
    unfold ProbTuple.Less at h
    rw [heq] at h
    simpa using h

/-- C5, at two candidates tied at LogProb 0 with tokens `a` and `b`. -/
theorem max_tie_break_largest_witness :
    Float64.Ordered IntFloat ∧
    ([⟨.fin 0, ["a"]⟩, ⟨.fin 0, ["b"]⟩] : ProbTuples IntFloat) ≠ [] ∧
    ((ProbTuples.Max [⟨IntFloat.fin 0, ["a"]⟩, ⟨.fin 0, ["b"]⟩]).1 ∈
        ([⟨.fin 0, ["a"]⟩, ⟨.fin 0, ["b"]⟩] : ProbTuples IntFloat) ∧
      (∀ t ∈ ([⟨.fin 0, ["a"]⟩, ⟨.fin 0, ["b"]⟩] : ProbTuples IntFloat),
        Float64.ge (ProbTuples.Max [⟨IntFloat.fin 0, ["a"]⟩, ⟨.fin 0, ["b"]⟩]).1.LogProb
          t.LogProb = true) ∧
      ∀ t ∈ ([⟨.fin 0, ["a"]⟩, ⟨.fin 0, ["b"]⟩] : ProbTuples IntFloat),
        Float64.eq (ProbTuples.Max [⟨IntFloat.fin 0, ["a"]⟩, ⟨.fin 0, ["b"]⟩]).1.LogProb
          t.LogProb = true →
        strLt (joinTokens (ProbTuples.Max [⟨IntFloat.fin 0, ["a"]⟩, ⟨.fin 0, ["b"]⟩]).1.Tokens)
          (joinTokens t.Tokens) = false) :=
  ⟨intFloat_ordered, by decide,
    max_tie_break_largest intFloat_ordered _ (by decide) (by decide)⟩

/-- C5 fails as stated: of the two candidates `a` and `b`, both with the maximum
LogProb 0 and neither NaN, the concatenation of `a` is the lexicographically
smaller, and `Max` returns `b`. -/
theorem max_tie_break_smaller_counterexample :
    strLt (joinTokens ["a"]) (joinTokens ["b"]) = true ∧
    Float64.eq (IntFloat.fin 0) (IntFloat.fin 0) = true ∧
    Float64.isNaN (IntFloat.fin 0) = false ∧
    ProbTuples.Max [⟨IntFloat.fin 0, ["a"]⟩, ⟨IntFloat.fin 0, ["b"]⟩]
      = (⟨IntFloat.fin 0, ["b"]⟩, none) ∧
    (⟨IntFloat.fin 0, ["b"]⟩ : ProbTuple IntFloat) ≠ ⟨IntFloat.fin 0, ["a"]⟩ := by
  decide

/-! ## Strings -/

theorem string_length_zero {s : String} (h : s.length = 0) : s = "" := by
  apply String.ext
  exact List.length_eq_zero.1 h

theorem joinTokens_nil : joinTokens [] = "" := rfl

theorem joinTokens_cons (t : String) (ts : List String) :
    joinTokens (t :: ts) = t ++ joinTokens ts := by
  apply String.ext
  simp [joinTokens]

/-! ## Split, entry by entry -/

theorem split_ok_nonneg {F : Type} (a : Analyzer F) (text : String) (splits : Splits)
    (h : a.Split text = .ok splits) : 0 ≤ a.MaxTokenLength := by
  by_contra hneg
  unfold Analyzer.Split at h
  have hmax : (if (text.data.length : Int) > a.MaxTokenLength then a.MaxTokenLength
      else (text.data.length : Int)) < 0 := by
    split <;> omega
  simp only [if_pos hmax] at h
  cases h

theorem split_mem {F : Type} (a : Analyzer F) (text : String) (splits : Splits)
    (h : a.Split text = .ok splits) (p : TwoStrings) (hp : p ∈ splits) :
    p.1 ++ p.2 = text ∧ 1 ≤ p.1.length ∧ (p.1.length : Int) ≤ a.MaxTokenLength ∧
      p.2.length < text.length := by
  have hm := split_ok_nonneg a text splits h
  rw [split_eq a text hm] at h
  injection h with h
  subst h
  obtain ⟨i, hi, rfl⟩ := List.mem_map.1 hp
  have hi2 := List.mem_range.1 hi
  refine ⟨?_, ?_, ?_, ?_⟩
  · apply String.ext
    simp
  · simp only [String.length, List.length_take]; omega
  · simp only [String.length, List.length_take]; omega
  · simp only [String.length, List.length_drop]; omega

theorem split_length {F : Type} (a : Analyzer F) (text : String) (splits : Splits)
    (h : a.Split text = .ok splits) (hm : 1 ≤ a.MaxTokenLength) (ht : text.length ≠ 0) :
    splits ≠ [] := by
  rw [split_eq a text (by omega)] at h
  injection h with h
  subst h
  intro hnil
  have := congrArg List.length hnil
  simp only [List.length_map, List.length_range, List.length_nil, String.length] at this ht
  omega

/-! ## The loop and the recursion -/

theorem isSegmentation_nil {F : Type} (a : Analyzer F) : a.IsSegmentation "" [] :=
  ⟨rfl, fun t ht => absurd ht (List.not_mem_nil t)⟩

theorem memoSound_set {F : Type} (a : Analyzer F) (memo : Memo F) (text : String) (pt : ProbTuple F)
    (hm : a.MemoSound memo) (hpt : a.IsSegmentation text pt.Tokens) :
    a.MemoSound (memo.set text pt) := by
  intro k v hk
  unfold Memo.set at hk
  split at hk
  · rename_i hkt
    injection hk with hk
    subst hk
    rw [hkt]
    exact hpt
  · exact hm k v hk

theorem memoSound_empty {F : Type} (a : Analyzer F) : a.MemoSound (fun _ => none) := by
  intro k v hk
  cases hk

section Recursion

variable {F : Type} [Float64 F]

theorem segmentLoop_length (a : Analyzer F)
    (recurse : String → String → Int → Memo F → Except Fault (ProbTuple F × Memo F))
    (previous : String) (n : Int) (splits : Splits) :
    ∀ (pts : ProbTuples F) (memo : Memo F) (pts1 : ProbTuples F) (memo1 : Memo F),
      segmentLoop a recurse previous n splits pts memo = .ok (pts1, memo1) →
      pts1.length = pts.length + splits.length := by
  induction splits with
  | nil =>
    intro pts memo pts1 memo1 h
    simp only [segmentLoop, Except.ok.injEq, Prod.mk.injEq] at h
    simp [h.1]
  | cons p rest ih =>
    intro pts memo pts1 memo1 h
    simp only [segmentLoop] at h
    split at h
    · cases h
    · have := ih _ _ _ _ h
      simp only [List.length_append, List.length_cons, List.length_nil] at this ⊢
      omega

theorem isSegmentation_combine (a : Analyzer F) (text : String) (p : TwoStrings)
    (r : ProbTuple F) (log_p : F)
    (hcat : p.1 ++ p.2 = text) (hlen : 1 ≤ p.1.length)
    (hmax : (p.1.length : Int) ≤ a.MaxTokenLength)
    (hr : a.IsSegmentation p.2 r.Tokens) :
    a.IsSegmentation text (r.Combine log_p p.1).Tokens := by
  refine ⟨?_, ?_⟩
  · show joinTokens ([p.1] ++ r.Tokens) = text
    rw [List.singleton_append, joinTokens_cons, hr.1, hcat]
  · intro t ht
    rcases List.mem_cons.1 ht with rfl | ht
    · refine ⟨?_, hmax⟩
      intro he
      rw [he] at hlen
      exact absurd hlen (by decide)
    · exact hr.2 t ht

theorem segmentLoop_sound (a : Analyzer F)
    (recurse : String → String → Int → Memo F → Except Fault (ProbTuple F × Memo F))
    (text previous : String) (n : Int)
    (hrec : ∀ (rem first : String) (k : Int) (memo : Memo F), rem.length < text.length →
      a.MemoSound memo → ∃ pt memo1, recurse rem first k memo = .ok (pt, memo1) ∧
        a.IsSegmentation rem pt.Tokens ∧ a.MemoSound memo1)
    (splits : Splits) :
    ∀ (pts : ProbTuples F) (memo : Memo F),
      (∀ p ∈ splits, p.1 ++ p.2 = text ∧ 1 ≤ p.1.length ∧
        (p.1.length : Int) ≤ a.MaxTokenLength ∧ p.2.length < text.length) →
      (∀ t ∈ pts, a.IsSegmentation text t.Tokens) → a.MemoSound memo →
      ∃ pts1 memo1, segmentLoop a recurse previous n splits pts memo = .ok (pts1, memo1) ∧
        (∀ t ∈ pts1, a.IsSegmentation text t.Tokens) ∧ a.MemoSound memo1 := by
  induction splits with
  | nil =>
    intro pts memo _ hpts hmemo
    exact ⟨pts, memo, rfl, hpts, hmemo⟩
  | cons p rest ih =>
    intro pts memo hsplits hpts hmemo
    obtain ⟨hcat, hlen, hmax, hrem⟩ := hsplits p (List.mem_cons_self _ _)
    obtain ⟨r, memo1, hr, hseg, hmemo1⟩ := hrec p.2 p.1 (n + 1) memo hrem hmemo
    simp only [segmentLoop, hr]
    apply ih
    · exact fun q hq => hsplits q (List.mem_cons_of_mem _ hq)
    · intro t ht
      rcases List.mem_append.1 ht with ht | ht
      · exact hpts t ht
      · rw [List.mem_singleton.1 ht]
        exact isSegmentation_combine a text p r _ hcat hlen hmax hseg
    · exact hmemo1

theorem segmentRecurse_step (a : Analyzer F) (fuel : Nat) (text previous : String) (n : Int)
    (memo : Memo F) (splits : Splits) (h0 : text.length ≠ 0) (hlook : memo text = none)
    (hsplit : a.Split text = .ok splits) :
    a.SegmentRecurse (fuel + 1) text previous n memo =
      match segmentLoop a (a.SegmentRecurse fuel) previous n splits [] memo with
      | .error e => .error e
      | .ok (pts, memo1) =>
        .ok ((ProbTuples.Max pts).1, memo1.set text (ProbTuples.Max pts).1) := by
  rw [Analyzer.SegmentRecurse, if_neg h0]
  simp only [hlook, hsplit]

theorem segmentRecurse_sound (a : Analyzer F) (hm : 1 ≤ a.MaxTokenLength) (fuel : Nat) :
    ∀ (text previous : String) (n : Int) (memo : Memo F), text.length < fuel →
      a.MemoSound memo → ∃ pt memo1, a.SegmentRecurse fuel text previous n memo = .ok (pt, memo1) ∧
        a.IsSegmentation text pt.Tokens ∧ a.MemoSound memo1 := by
  induction fuel with
  | zero => intro text _ _ _ h; exact absurd h (Nat.not_lt_zero _)
  | succ fuel ih =>
    intro text previous n memo hfuel hmemo
    by_cases h0 : text.length = 0
    · rw [Analyzer.SegmentRecurse, if_pos h0]
      refine ⟨_, _, rfl, ?_, hmemo⟩
      rw [string_length_zero h0]
      exact isSegmentation_nil a
    · cases hlook : memo text with
      | some val =>
        rw [Analyzer.SegmentRecurse, if_neg h0]
        simp only [hlook]
        exact ⟨val, memo, rfl, hmemo text val hlook, hmemo⟩
      | none =>
        have hsplit := split_eq a text (by omega)
        obtain ⟨pts1, memo1, hloop, hpts1, hmemo1⟩ :=
          segmentLoop_sound a (a.SegmentRecurse fuel) text previous n
            (fun rem first k m hlen hms => ih rem first k m (by omega) hms)
            _ [] memo (split_mem a text _ hsplit)
            (fun t ht => absurd ht (List.not_mem_nil t)) hmemo
        have hne : pts1 ≠ [] := by
          intro hnil
          have hl := segmentLoop_length a _ previous n _ _ _ _ _ hloop
          have hs := split_length a text _ hsplit hm h0
          rw [hnil] at hl
          simp only [List.length_nil, Nat.zero_add] at hl
          exact hs (List.length_eq_zero.1 hl.symm)
        rw [segmentRecurse_step a fuel text previous n memo _ h0 hlook hsplit, hloop]
        have hseg := hpts1 _ (max_mem pts1 hne).2
        exact ⟨_, _, rfl, hseg, memoSound_set a memo1 text _ hmemo1 hseg⟩

end Recursion

/-- C1: for `MaxTokenLength >= 1`, whatever the two tables hold, `Segment(text)`
returns, and the tokens it returns concatenated in order are `text`. -/
theorem segment_concat {F : Type} [Float64 F] (a : Analyzer F) (hm : 1 ≤ a.MaxTokenLength)
    (text : String) :
    ∃ tokens, a.Segment text = .ok tokens ∧ joinTokens tokens = text := by
  obtain ⟨pt, memo1, hrun, hseg, _⟩ :=
    segmentRecurse_sound a hm (text.length + 1) text "<S>" 0 (fun _ => none)
      (Nat.lt_succ_self _) (memoSound_empty a)
  exact ⟨pt.Tokens, by simp only [Analyzer.Segment, hrun], hseg.1⟩

/-- C1, at the text `abc`. -/
theorem segment_concat_witness :
    1 ≤ abcAnalyzer.MaxTokenLength ∧
      ∃ tokens, abcAnalyzer.Segment "abc" = .ok tokens ∧ joinTokens tokens = "abc" :=
  ⟨by decide, segment_concat abcAnalyzer (by decide) "abc"⟩

/-- C9: for `MaxTokenLength >= 1`, `Segment(text)` returns, and every token it
returns is non-empty and has at most `MaxTokenLength` code points. -/
theorem segment_token_length {F : Type} [Float64 F] (a : Analyzer F)
    (hm : 1 ≤ a.MaxTokenLength) (text : String) :
    ∃ tokens, a.Segment text = .ok tokens ∧
      ∀ t ∈ tokens, t ≠ "" ∧ 1 ≤ t.length ∧ (t.length : Int) ≤ a.MaxTokenLength := by
  obtain ⟨pt, memo1, hrun, hseg, _⟩ :=
    segmentRecurse_sound a hm (text.length + 1) text "<S>" 0 (fun _ => none)
      (Nat.lt_succ_self _) (memoSound_empty a)
  refine ⟨pt.Tokens, by simp only [Analyzer.Segment, hrun], fun t ht => ?_⟩
  obtain ⟨hne, hle⟩ := hseg.2 t ht
  refine ⟨hne, ?_, hle⟩
  rcases Nat.eq_zero_or_pos t.length with h | h
  · exact absurd (string_length_zero h) hne
  · exact h

/-- C9, at the text `abc` with `MaxTokenLength = 2`. -/
theorem segment_token_length_witness :
    1 ≤ (abcAnalyzerMax 2).MaxTokenLength ∧
      ∃ tokens, (abcAnalyzerMax 2).Segment "abc" = .ok tokens ∧
        ∀ t ∈ tokens, t ≠ "" ∧ 1 ≤ t.length ∧
          (t.length : Int) ≤ (abcAnalyzerMax 2).MaxTokenLength :=
  ⟨by decide, segment_token_length (abcAnalyzerMax 2) (by decide) "abc"⟩

/-! ## Fuel -/

theorem split_neg {F : Type} (a : Analyzer F) (text : String) (hm : a.MaxTokenLength < 0) :
    a.Split text = .error .negativeLen := by
  unfold Analyzer.Split
  have hmax : (if (text.data.length : Int) > a.MaxTokenLength then a.MaxTokenLength
      else (text.data.length : Int)) < 0 := by
    split <;> omega
  simp only [if_pos hmax]

theorem segmentLoop_congr {F : Type} [Float64 F] (a : Analyzer F)
    (rec1 rec2 : String → String → Int → Memo F → Except Fault (ProbTuple F × Memo F))
    (previous : String) (n : Int) (splits : Splits)
    (h : ∀ p ∈ splits, ∀ (first : String) (k : Int) (memo : Memo F),
      rec1 p.2 first k memo = rec2 p.2 first k memo) :
    ∀ (pts : ProbTuples F) (memo : Memo F),
      segmentLoop a rec1 previous n splits pts memo =
        segmentLoop a rec2 previous n splits pts memo := by
  induction splits with
  | nil => intro pts memo; rfl
  | cons p rest ih =>
    intro pts memo
    simp only [segmentLoop, h p (List.mem_cons_self _ _)]
    cases rec2 p.2 p.1 (n + 1) memo with
    | error e => rfl
    | ok r => exact ih (fun q hq => h q (List.mem_cons_of_mem _ hq)) _ _

/-- Any fuel above the number of code points of the text gives the same run. -/
theorem segmentRecurse_fuel {F : Type} [Float64 F] (a : Analyzer F) (fuel1 : Nat) :
    ∀ (fuel2 : Nat) (text previous : String) (n : Int) (memo : Memo F),
      text.length < fuel1 → text.length < fuel2 →
      a.SegmentRecurse fuel1 text previous n memo =
        a.SegmentRecurse fuel2 text previous n memo := by
  induction fuel1 with
  | zero => intro _ text _ _ _ h; exact absurd h (Nat.not_lt_zero _)
  | succ fuel1 ih =>
    intro fuel2 text previous n memo h1 h2
    cases fuel2 with
    | zero => exact absurd h2 (Nat.not_lt_zero _)
    | succ fuel2 =>
      rw [Analyzer.SegmentRecurse, Analyzer.SegmentRecurse]
      by_cases h0 : text.length = 0
      · rw [if_pos h0, if_pos h0]
      · rw [if_neg h0, if_neg h0]
        cases memo text with
        | some val => rfl
        | none =>
          cases hsplit : a.Split text with
          | error e => rfl
          | ok splits =>
            simp only
            rw [segmentLoop_congr a (a.SegmentRecurse fuel1) (a.SegmentRecurse fuel2)]
            intro p hp first k m
            have hlen := (split_mem a text splits hsplit p hp).2.2.2
            exact ih fuel2 p.2 first k m (by omega) (by omega)

/-- With fuel above the number of code points of the text the fuel does not run
out, whatever `MaxTokenLength` is. -/
theorem segmentRecurse_fuel_enough {F : Type} [Float64 F] (a : Analyzer F) (fuel : Nat) :
    ∀ (text previous : String) (n : Int) (memo : Memo F), text.length < fuel →
      a.SegmentRecurse fuel text previous n memo ≠ .error .outOfFuel := by
  induction fuel with
  | zero => intro text _ _ _ h; exact absurd h (Nat.not_lt_zero _)
  | succ fuel ih =>
    intro text previous n memo hfuel
    rw [Analyzer.SegmentRecurse]
    by_cases h0 : text.length = 0
    · rw [if_pos h0]; exact fun h => by cases h
    · rw [if_neg h0]
      cases memo text with
      | some val => exact fun h => by cases h
      | none =>
        cases hsplit : a.Split text with
        | error e =>
          intro h
          injection h with h
          subst h
          by_cases hm : 0 ≤ a.MaxTokenLength
          · rw [split_eq a text hm] at hsplit
            cases hsplit
          · rw [split_neg a text (by omega)] at hsplit
            cases hsplit
        | ok splits =>
          simp only
          have hloop : ∀ (l : Splits) (pts : ProbTuples F) (m : Memo F),
              (∀ p ∈ l, p.2.length < fuel) →
              segmentLoop a (a.SegmentRecurse fuel) previous n l pts m ≠ .error .outOfFuel := by
            intro l
            induction l with
            | nil => intro pts m _ h; cases h
            | cons p rest ihl =>
              intro pts m hl
              simp only [segmentLoop]
              cases hr : a.SegmentRecurse fuel p.2 p.1 (n + 1) m with
              | error e =>
                intro h
                injection h with h
                subst h
                exact ih p.2 p.1 (n + 1) m (hl p (List.mem_cons_self _ _)) hr
              | ok r => exact ihl _ _ (fun q hq => hl q (List.mem_cons_of_mem _ hq))
          have hl : ∀ p ∈ splits, p.2.length < fuel := by
            intro p hp
            have := (split_mem a text splits hsplit p hp).2.2.2
            omega
          cases hrun : segmentLoop a (a.SegmentRecurse fuel) previous n splits [] memo with
          | error e =>
            intro h
            injection h with h
            subst h
            exact hloop splits [] memo hl hrun
          | ok r => exact fun h => by cases h

/-! ## The error of Max -/

section CheckedRun

variable {F : Type} [Float64 F]

theorem segmentLoopChecked_eq (a : Analyzer F)
    (recurse : String → String → Int → Memo F → Except Fault (ProbTuple F × Memo F))
    (recurseC : String → String → Int → Memo F → Checked (ProbTuple F × Memo F))
    (hrec : ∀ text previous n memo,
      recurseC text previous n memo = Checked.ofExcept (recurse text previous n memo))
    (previous : String) (n : Int) (splits : Splits) :
    ∀ (pts : ProbTuples F) (memo : Memo F),
      segmentLoopChecked a recurseC previous n splits pts memo =
        Checked.ofExcept (segmentLoop a recurse previous n splits pts memo) := by
  induction splits with
  | nil => intro pts memo; rfl
  | cons p rest ih =>
    intro pts memo
    simp only [segmentLoopChecked, segmentLoop, hrec]
    cases hr : recurse p.2 p.1 (n + 1) memo with
    | error e => rfl
    | ok r =>
      obtain ⟨pt, memo1⟩ := r
      simp only [Checked.ofExcept]
      exact ih _ _

theorem segmentRecurseChecked_eq (a : Analyzer F) (hm : 1 ≤ a.MaxTokenLength) (fuel : Nat) :
    ∀ (text previous : String) (n : Int) (memo : Memo F),
      a.SegmentRecurseChecked fuel text previous n memo =
        Checked.ofExcept (a.SegmentRecurse fuel text previous n memo) := by
  induction fuel with
  | zero => intro text previous n memo; rfl
  | succ fuel ih =>
    intro text previous n memo
    by_cases h0 : text.length = 0
    · rw [Analyzer.SegmentRecurseChecked, Analyzer.SegmentRecurse, if_pos h0, if_pos h0]
      rfl
    · cases hlook : memo text with
      | some val =>
        rw [Analyzer.SegmentRecurseChecked, Analyzer.SegmentRecurse, if_neg h0, if_neg h0]
        simp only [hlook]
        rfl
      | none =>
        have hsplit := split_eq a text (by omega)
        rw [segmentRecurse_step a fuel text previous n memo _ h0 hlook hsplit]
        rw [Analyzer.SegmentRecurseChecked, if_neg h0]
        simp only [hlook, hsplit]
        rw [segmentLoopChecked_eq a (a.SegmentRecurse fuel) (a.SegmentRecurseChecked fuel) ih]
        cases hloop : segmentLoop a (a.SegmentRecurse fuel) previous n _ [] memo with
        | error e => rfl
        | ok r =>
          obtain ⟨pts1, memo1⟩ := r
          have hne : pts1 ≠ [] := by
            intro hnil
            have hl := segmentLoop_length a _ previous n _ _ _ _ _ hloop
            have hs := split_length a text _ hsplit hm h0
            rw [hnil] at hl
            simp only [List.length_nil, Nat.zero_add] at hl
            exact hs (List.length_eq_zero.1 hl.symm)
          have hmax : ProbTuples.Max pts1 = ((ProbTuples.Max pts1).1, none) :=
            Prod.ext rfl (max_mem pts1 hne).1
          simp only [Checked.ofExcept]
          rw [hmax]

end CheckedRun

/-- C8, for `MaxTokenLength >= 1`: `Split` of a non-empty text yields at least
one pair; every candidate list that the loop of `SegmentRecurse` builds from the
pairs of a non-empty text is non-empty and `Max` returns no error on it; and the
run of `Segment` in which an error returned by `Max` would stop the run returns,
with the tokens `Segment` returns. -/
theorem max_error_unreachable {F : Type} [Float64 F] (a : Analyzer F)
    (hm : 1 ≤ a.MaxTokenLength) (text : String) :
    (text ≠ "" → ∃ p rest, a.Split text = .ok (p :: rest)) ∧
    (∀ (recurse : String → String → Int → Memo F → Except Fault (ProbTuple F × Memo F))
        (previous : String) (n : Int) (splits : Splits) (memo memo1 : Memo F)
        (pts : ProbTuples F), text ≠ "" → a.Split text = .ok splits →
        segmentLoop a recurse previous n splits [] memo = .ok (pts, memo1) →
        pts ≠ [] ∧ (ProbTuples.Max pts).2 = none) ∧
    ∃ pt memo1,
      a.SegmentRecurseChecked (text.length + 1) text "<S>" 0 (fun _ => none)
        = .done (pt, memo1) ∧
      a.Segment text = .ok pt.Tokens := by
  have hlen : text ≠ "" → text.length ≠ 0 := fun hne h0 => hne (string_length_zero h0)
  refine ⟨fun hne => ?_, ?_, ?_⟩
  · have hsplit := split_eq a text (by omega)
    have hs := split_length a text _ hsplit hm (hlen hne)
    cases hl : (List.range (min text.data.length a.MaxTokenLength.toNat)).map
        (fun i => (String.mk (text.data.take (i + 1)), String.mk (text.data.drop (i + 1)))) with
    | nil => exact absurd hl hs
    | cons p rest => exact ⟨p, rest, by rw [hsplit, hl]⟩
  · intro recurse previous n splits memo memo1 pts hne hsplit hloop
    have hl := segmentLoop_length a _ previous n _ _ _ _ _ hloop
    have hs := split_length a text _ hsplit hm (hlen hne)
    have hpts : pts ≠ [] := by
      intro hnil
      rw [hnil] at hl
      simp only [List.length_nil, Nat.zero_add] at hl
      exact hs (List.length_eq_zero.1 hl.symm)
    exact ⟨hpts, (max_mem pts hpts).1⟩
  · obtain ⟨pt, memo1, hrun, _, _⟩ :=
      segmentRecurse_sound a hm (text.length + 1) text "<S>" 0 (fun _ => none)
        (Nat.lt_succ_self _) (memoSound_empty a)
    refine ⟨pt, memo1, ?_, by simp only [Analyzer.Segment, hrun]⟩
    rw [segmentRecurseChecked_eq a hm, hrun]
    rfl

/-- C8, at the text `abc`. -/
theorem max_error_unreachable_witness :
    1 ≤ abcAnalyzer.MaxTokenLength ∧
    (("abc" : String) ≠ "" → ∃ p rest, abcAnalyzer.Split "abc" = .ok (p :: rest)) ∧
    (∀ (recurse : String → String → Int → Memo IntFloat →
          Except Fault (ProbTuple IntFloat × Memo IntFloat))
        (previous : String) (n : Int) (splits : Splits) (memo memo1 : Memo IntFloat)
        (pts : ProbTuples IntFloat), ("abc" : String) ≠ "" →
        abcAnalyzer.Split "abc" = .ok splits →
        segmentLoop abcAnalyzer recurse previous n splits [] memo = .ok (pts, memo1) →
        pts ≠ [] ∧ (ProbTuples.Max pts).2 = none) ∧
    ∃ pt memo1,
      abcAnalyzer.SegmentRecurseChecked (("abc" : String).length + 1) "abc" "<S>" 0
        (fun _ => none) = .done (pt, memo1) ∧
      abcAnalyzer.Segment "abc" = .ok pt.Tokens :=
  ⟨by decide, max_error_unreachable abcAnalyzer (by decide) "abc"⟩

/-- C8 fails for an analyzer with `MaxTokenLength = 0`: `Split` of the non-empty
text `a` yields no pair, the candidate list is empty, `Max` returns its error on
it, and `Segment` returns no token. -/
theorem max_error_reached_counterexample :
    ("a" : String) ≠ "" ∧
    (abcAnalyzerMax 0).Split "a" = .ok [] ∧
    (∃ memo1, segmentLoop (abcAnalyzerMax 0) ((abcAnalyzerMax 0).SegmentRecurse 1) "<S>" 0 []
      [] (fun _ => none) = .ok ([], memo1)) ∧
    (ProbTuples.Max ([] : ProbTuples IntFloat)).2 = some "Index out of range" ∧
    (abcAnalyzerMax 0).SegmentRecurseChecked 2 "a" "<S>" 0 (fun _ => none) = .maxError ∧
    (abcAnalyzerMax 0).Segment "a" = .ok [] :=
  ⟨by decide, by decide, ⟨_, rfl⟩, by decide, rfl, by decide⟩

/-! ## The memo and the previous token -/

/-- C2 fails on the code: on `abc` with the tables of `abcAnalyzer` (no NaN, no
+infinity, `MaxTokenLength` 20) `Segment` returns `ab`, `c`, of score -11, and
`a`, `b`, `c` is a segmentation of score -3. -/
theorem segment_not_optimal_at_abc :
    1 ≤ abcAnalyzer.MaxTokenLength ∧
    abcAnalyzer.Segment "abc" = .ok ["ab", "c"] ∧
    abcAnalyzer.score "<S>" ["ab", "c"] = IntFloat.fin (-11) ∧
    joinTokens ["a", "b", "c"] = "abc" ∧
    (∀ t ∈ ["a", "b", "c"], t ≠ "" ∧ (t.length : Int) ≤ abcAnalyzer.MaxTokenLength) ∧
    abcAnalyzer.score "<S>" ["a", "b", "c"] = IntFloat.fin (-3) ∧
    Float64.ge (abcAnalyzer.score "<S>" ["ab", "c"])
      (abcAnalyzer.score "<S>" ["a", "b", "c"]) = false := by
  refine ⟨by decide, by decide, by decide, by decide, by decide, by decide, by decide⟩

/-- C3 fails on the code: on `abc` with the tables of `abcAnalyzer` and an empty
memo, `SegmentRecurse` returns LogProb -2 with tokens `ab`, `c`, while the same
recursion with the memo keyed on (text, previous), and the same recursion with
no memo, return LogProb -3 with tokens `a`, `b`, `c`. -/
theorem memo_changes_result_at_abc :
    (abcAnalyzer.SegmentRecurse 4 "abc" "<S>" 0 (fun _ => none)).map Prod.fst
      = .ok ⟨IntFloat.fin (-2), ["ab", "c"]⟩ ∧
    (abcAnalyzer.SegmentRecursePairMemo 4 "abc" "<S>" 0 (fun _ => none)).map Prod.fst
      = .ok ⟨IntFloat.fin (-3), ["a", "b", "c"]⟩ ∧
    abcAnalyzer.SegmentRecurseNoMemo 4 "abc" "<S>" 0
      = .ok ⟨IntFloat.fin (-3), ["a", "b", "c"]⟩ := by
  refine ⟨by decide, by decide, by decide⟩

/-! ## Witnesses and worked inputs -/

/-- C4, at `abc` with `MaxTokenLength = 2`. -/
theorem split_pairs_witness :
    0 ≤ (abcAnalyzerMax 2).MaxTokenLength ∧
    ∃ splits, (abcAnalyzerMax 2).Split "abc" = .ok splits ∧
      (splits.length : Int) = min (("abc" : String).length : Int)
        (abcAnalyzerMax 2).MaxTokenLength ∧
      ∀ k : Nat, 1 ≤ k →
        (k : Int) ≤ min (("abc" : String).length : Int) (abcAnalyzerMax 2).MaxTokenLength →
        splits[k - 1]? = some (String.mk (("abc" : String).data.take k),
          String.mk (("abc" : String).data.drop k)) ∧
        (String.mk (("abc" : String).data.take k)).length = k ∧
        (String.mk (("abc" : String).data.drop k)).length = ("abc" : String).length - k ∧
        String.mk (("abc" : String).data.take k) ++ String.mk (("abc" : String).data.drop k)
          = "abc" :=
  ⟨by decide, split_pairs (abcAnalyzerMax 2) "abc" (by decide)⟩

theorem split_abc_max_two :
    (abcAnalyzerMax 2).Split "abc" = .ok [("a", "bc"), ("ab", "c")] := by decide

theorem split_abc_max_twenty :
    abcAnalyzer.Split "abc" = .ok [("a", "bc"), ("ab", "c"), ("abc", "")] := by decide

theorem split_multibyte :
    abcAnalyzer.Split "日本語" = .ok [("日", "本語"), ("日本", "語"), ("日本語", "")] := by decide

/-! ## Combine -/

/-- C11: `t.Combine(p, s)` has LogProb `p + t.LogProb` and Tokens `s` followed by
the tokens of `t` in their order; `t` is an argument of a function and is not
changed by it. -/
theorem combine_spec {F : Type} [Float64 F] (t : ProbTuple F) (p : F) (s : String) :
    (t.Combine p s).LogProb = Float64.add p t.LogProb ∧
    (t.Combine p s).Tokens = s :: t.Tokens ∧
    (t.Combine p s).Tokens.tail = t.Tokens := by
  refine ⟨rfl, rfl, rfl⟩

theorem combine_test :
    (⟨IntFloat.fin 1, ["b", "c"]⟩ : ProbTuple IntFloat).Combine (.fin 2) "a"
      = ⟨.fin 3, ["a", "b", "c"]⟩ := by decide

/-! ## The error of Max, exactly -/

/-- C15: `Max` returns an error if and only if the list of ProbTuples is
empty. -/
theorem max_error_iff_empty {F : Type} [Float64 F] (slice : ProbTuples F) :
    (ProbTuples.Max slice).2 ≠ none ↔ slice = [] := by
  cases slice with
  | nil => simp [ProbTuples.Max]
  | cons first rest => simp [ProbTuples.Max]

/-! ## The first two cases of SegmentRecurse -/

/-- C16: for every analyzer, previous token, depth `n` and memo, also one with
an entry for the empty string, `SegmentRecurse("", previous, n, memo)` returns
LogProb `0.0` with no token and the memo as it was; and `Segment("")` returns
no token. -/
theorem segmentRecurse_empty {F : Type} [Float64 F] (a : Analyzer F) (fuel : Nat)
    (previous : String) (n : Int) (memo : Memo F) :
    a.SegmentRecurse (fuel + 1) "" previous n memo
      = .ok ({ LogProb := Float64.zero, Tokens := [] }, memo) ∧
    a.Segment "" = .ok [] := by
  refine ⟨rfl, rfl⟩

theorem segmentRecurse_empty_with_entry :
    oddMemo "" = some ⟨.fin 5, ["x"]⟩ ∧
    (abcAnalyzer.SegmentRecurse 1 "" "<S>" 0 oddMemo).map Prod.fst
      = .ok ⟨.fin 0, []⟩ := by
  refine ⟨by decide, by decide⟩

/-- C17: for a non-empty text that is a key of the memo, `SegmentRecurse(text,
previous, n, memo)` returns the stored tuple `memo[text]` and the memo as it
was, whatever the tables and the previous token are. -/
theorem segmentRecurse_memo_hit {F : Type} [Float64 F] (a : Analyzer F) (fuel : Nat)
    (text previous : String) (n : Int) (memo : Memo F) (val : ProbTuple F)
    (hne : text ≠ "") (hmem : memo text = some val) :
    a.SegmentRecurse (fuel + 1) text previous n memo = .ok (val, memo) := by
  have h0 : ¬ text.length = 0 := fun h => hne (string_length_zero h)
  rw [Analyzer.SegmentRecurse, if_neg h0]
  simp only [hmem]

/-- C17, at the memo of the test: the entry for `the`. -/
theorem segmentRecurse_memo_hit_witness :
    ("the" : String) ≠ "" ∧ theMemo "the" = some ⟨.fin (-6), ["the"]⟩ ∧
    abcAnalyzer.SegmentRecurse (0 + 1) "the" "<S>" 0 theMemo
      = .ok (⟨.fin (-6), ["the"]⟩, theMemo) :=
  ⟨by decide, by decide,
    segmentRecurse_memo_hit abcAnalyzer 0 "the" "<S>" 0 theMemo _ (by decide) (by decide)⟩

/-! ## The memo after a call -/

theorem kept_refl {F : Type} (L : Nat) (memo : Memo F) : Memo.Kept L memo memo :=
  fun _ _ => rfl

theorem kept_trans {F : Type} {L : Nat} {m0 m1 m2 : Memo F} (h1 : Memo.Kept L m0 m1)
    (h2 : Memo.Kept L m1 m2) : Memo.Kept L m0 m2 := by
  intro k hk
  have hk1 := h1 k hk
  rcases hk with hk | hk
  · rw [h2 k (Or.inl (by rw [hk1]; exact hk)), hk1]
  · rw [h2 k (Or.inr hk), hk1]

theorem kept_mono {F : Type} {L L1 : Nat} {m0 m1 : Memo F} (hL : L ≤ L1) (h : Memo.Kept L m0 m1) :
    Memo.Kept L1 m0 m1 := by
  intro k hk
  rcases hk with hk | hk
  · exact h k (Or.inl hk)
  · exact h k (Or.inr (by omega))

theorem kept_set {F : Type} {m0 m1 : Memo F} (text : String) (pt : ProbTuple F)
    (hmiss : m0 text = none) (h : Memo.Kept text.length m0 m1) :
    Memo.Kept (text.length + 1) m0 (m1.set text pt) := by
  intro k hk
  have hne : k ≠ text := by
    intro he
    rw [he] at hk
    rcases hk with hk | hk
    · exact hk hmiss
    · omega
  unfold Memo.set
  rw [if_neg hne]
  rcases hk with hk | hk
  · exact h k (Or.inl hk)
  · exact h k (Or.inr (by omega))

section Frame

variable {F : Type} [Float64 F]

theorem segmentLoop_returns (a : Analyzer F)
    (recurse : String → String → Int → Memo F → Except Fault (ProbTuple F × Memo F))
    (previous : String) (n : Int) (L : Nat)
    (hrec : ∀ (rem first : String) (k : Int) (memo : Memo F), rem.length < L →
      ∃ pt memo1, recurse rem first k memo = .ok (pt, memo1))
    (splits : Splits) :
    ∀ (pts : ProbTuples F) (memo : Memo F), (∀ p ∈ splits, p.2.length < L) →
      ∃ pts1 memo1, segmentLoop a recurse previous n splits pts memo = .ok (pts1, memo1) := by
  induction splits with
  | nil => intro pts memo _; exact ⟨pts, memo, rfl⟩
  | cons p rest ih =>
    intro pts memo hl
    obtain ⟨r, memo1, hr⟩ := hrec p.2 p.1 (n + 1) memo (hl p (List.mem_cons_self _ _))
    simp only [segmentLoop, hr]
    exact ih _ _ (fun q hq => hl q (List.mem_cons_of_mem _ hq))

/-- With `MaxTokenLength >= 0` and fuel above the number of code points of the
text, `SegmentRecurse` returns, whatever the memo holds. -/
theorem segmentRecurse_returns (a : Analyzer F) (hm : 0 ≤ a.MaxTokenLength) (fuel : Nat) :
    ∀ (text previous : String) (n : Int) (memo : Memo F), text.length < fuel →
      ∃ pt memo1, a.SegmentRecurse fuel text previous n memo = .ok (pt, memo1) := by
  induction fuel with
  | zero => intro text _ _ _ h; exact absurd h (Nat.not_lt_zero _)
  | succ fuel ih =>
    intro text previous n memo hfuel
    by_cases h0 : text.length = 0
    · rw [Analyzer.SegmentRecurse, if_pos h0]
      exact ⟨_, _, rfl⟩
    · cases hlook : memo text with
      | some val =>
        rw [Analyzer.SegmentRecurse, if_neg h0]
        simp only [hlook]
        exact ⟨_, _, rfl⟩
      | none =>
        have hsplit := split_eq a text hm
        obtain ⟨pts1, memo1, hloop⟩ :=
          segmentLoop_returns a (a.SegmentRecurse fuel) previous n text.length
            (fun rem first k m hlen => ih rem first k m (by omega)) _ [] memo
            (fun p hp => (split_mem a text _ hsplit p hp).2.2.2)
        rw [segmentRecurse_step a fuel text previous n memo _ h0 hlook hsplit, hloop]
        exact ⟨_, _, rfl⟩

theorem segmentLoop_kept (a : Analyzer F)
    (recurse : String → String → Int → Memo F → Except Fault (ProbTuple F × Memo F))
    (previous : String) (n : Int) (L : Nat)
    (hrec : ∀ (rem first : String) (k : Int) (memo : Memo F) (pt : ProbTuple F)
      (memo1 : Memo F), rem.length < L → recurse rem first k memo = .ok (pt, memo1) →
      Memo.Kept (rem.length + 1) memo memo1)
    (splits : Splits) :
    ∀ (pts : ProbTuples F) (memo : Memo F) (pts1 : ProbTuples F) (memo1 : Memo F),
      (∀ p ∈ splits, p.2.length < L) →
      segmentLoop a recurse previous n splits pts memo = .ok (pts1, memo1) →
      Memo.Kept L memo memo1 := by
  induction splits with
  | nil =>
    intro pts memo pts1 memo1 _ h
    simp only [segmentLoop, Except.ok.injEq, Prod.mk.injEq] at h
    rw [← h.2]
    exact kept_refl L memo
  | cons p rest ih =>
    intro pts memo pts1 memo1 hl h
    simp only [segmentLoop] at h
    have hp := hl p (List.mem_cons_self _ _)
    cases hr : recurse p.2 p.1 (n + 1) memo with
    | error e => rw [hr] at h; cases h
    | ok r =>
      obtain ⟨pt, memo2⟩ := r
      rw [hr] at h
      have h1 : Memo.Kept L memo memo2 :=
        kept_mono (by omega) (hrec p.2 p.1 (n + 1) memo pt memo2 hp hr)
      exact kept_trans h1 (ih _ _ _ _ (fun q hq => hl q (List.mem_cons_of_mem _ hq)) h)

theorem segmentRecurse_kept (a : Analyzer F) (fuel : Nat) :
    ∀ (text previous : String) (n : Int) (memo : Memo F) (pt : ProbTuple F) (memo1 : Memo F),
      a.SegmentRecurse fuel text previous n memo = .ok (pt, memo1) →
      Memo.Kept (text.length + 1) memo memo1 := by
  induction fuel with
  | zero => intro text previous n memo pt memo1 h; cases h
  | succ fuel ih =>
    intro text previous n memo pt memo1 h
    by_cases h0 : text.length = 0
    · rw [Analyzer.SegmentRecurse, if_pos h0] at h
      simp only [Except.ok.injEq, Prod.mk.injEq] at h
      rw [← h.2]
      exact kept_refl _ memo
    · cases hlook : memo text with
      | some val =>
        rw [Analyzer.SegmentRecurse, if_neg h0] at h
        simp only [hlook, Except.ok.injEq, Prod.mk.injEq] at h
        rw [← h.2]
        exact kept_refl _ memo
      | none =>
        cases hsplit : a.Split text with
        | error e =>
          rw [Analyzer.SegmentRecurse, if_neg h0] at h
          simp only [hlook, hsplit] at h
          cases h
        | ok splits =>
          rw [segmentRecurse_step a fuel text previous n memo _ h0 hlook hsplit] at h
          cases hloop : segmentLoop a (a.SegmentRecurse fuel) previous n splits [] memo with
          | error e => rw [hloop] at h; cases h
          | ok r =>
            obtain ⟨pts1, memo2⟩ := r
            rw [hloop] at h
            simp only [Except.ok.injEq, Prod.mk.injEq] at h
            rw [← h.2]
            apply kept_set text _ hlook
            exact segmentLoop_kept a _ previous n text.length
              (fun rem first k m pt1 m1 _ hrun => ih rem first k m pt1 m1 hrun)
              splits [] memo pts1 memo2
              (fun p hp => (split_mem a text _ hsplit p hp).2.2.2) hloop

end Frame

/-- C18: for `MaxTokenLength >= 1`, a non-empty text that is not a key of the
memo and any previous token, `SegmentRecurse` returns a tuple `r`, the memo after
the call maps `text` to `r`, and every entry that was in the memo before the call
is in it after the call with the same value. -/
theorem segmentRecurse_memo_post {F : Type} [Float64 F] (a : Analyzer F)
    (hm : 1 ≤ a.MaxTokenLength) (fuel : Nat) (text previous : String) (n : Int)
    (memo : Memo F) (hfuel : text.length < fuel) (hne : text ≠ "")
    (hmiss : memo text = none) :
    ∃ r memo1, a.SegmentRecurse fuel text previous n memo = .ok (r, memo1) ∧
      memo1 text = some r ∧ ∀ k v, memo k = some v → memo1 k = some v := by
  obtain ⟨r, memo1, hrun⟩ := segmentRecurse_returns a (by omega) fuel text previous n memo hfuel
  refine ⟨r, memo1, hrun, ?_, ?_⟩
  · cases fuel with
    | zero => cases hrun
    | succ fuel =>
      have h0 : ¬ text.length = 0 := fun h => hne (string_length_zero h)
      have hsplit := split_eq a text (by omega)
      rw [segmentRecurse_step a fuel text previous n memo _ h0 hmiss hsplit] at hrun
      split at hrun
      · cases hrun
      · simp only [Except.ok.injEq, Prod.mk.injEq] at hrun
        rw [← hrun.2, ← hrun.1]
        simp [Memo.set]
  · intro k v hk
    have := segmentRecurse_kept a fuel text previous n memo r memo1 hrun k
      (Or.inl (by rw [hk]; exact Option.some_ne_none v))
    rw [this, hk]

/-- C18, at the text `bc` with a memo that holds entries for the empty string
and for `c`. -/
theorem segmentRecurse_memo_post_witness :
    1 ≤ abcAnalyzer.MaxTokenLength ∧ ("bc" : String).length < 3 ∧ ("bc" : String) ≠ "" ∧
    oddMemo "bc" = none ∧
    ∃ r memo1, abcAnalyzer.SegmentRecurse 3 "bc" "a" 1 oddMemo = .ok (r, memo1) ∧
      memo1 "bc" = some r ∧ ∀ k v, oddMemo k = some v → memo1 k = some v :=
  ⟨by decide, by decide, by decide, by decide,
    segmentRecurse_memo_post abcAnalyzer (by decide) 3 "bc" "a" 1 oddMemo (by decide)
      (by decide) (by decide)⟩

/-! ## Building a table -/

section Build

variable {F : Type} [Float64Lib F]

theorem readFrequenciesLoop_short (LogTotal : F) (text : String) (rest : List String)
    (table : String → Option F) (h : (Fields text).length < 2) :
    readFrequenciesLoop LogTotal (text :: rest) table =
      readFrequenciesLoop LogTotal rest table := by
  have h2 : ¬ (Fields text).length ≥ 2 := by omega
  simp only [readFrequenciesLoop, if_neg h2]

theorem readFrequenciesLoop_stop (LogTotal : F) (text : String) (rest : List String)
    (table : String → Option F) (h : stopsScan F text = true) :
    readFrequenciesLoop LogTotal (text :: rest) table = table := by
  simp only [stopsScan, Bool.and_eq_true, decide_eq_true_eq, Bool.not_eq_true'] at h
  simp only [readFrequenciesLoop, if_pos h.1, h.2]
  rfl

theorem readFrequenciesLoop_good (LogTotal : F) (text : String) (rest : List String)
    (table : String → Option F) (h2 : (Fields text).length ≥ 2)
    (hp : (Float64Lib.ParseFloat (F := F)
      ((Fields text).getD ((Fields text).length - 1) "")).2 = true) :
    readFrequenciesLoop LogTotal (text :: rest) table =
      readFrequenciesLoop LogTotal rest
        (tableSet table (lineKey text)
          (Float64Lib.sub (Float64Lib.Log2 (lineFreq F text)) LogTotal)) := by
  simp only [readFrequenciesLoop, if_pos h2, hp]
  rfl

theorem readFrequenciesLoop_takeWhile (LogTotal : F) (lines : List String) :
    ∀ table : String → Option F,
      readFrequenciesLoop LogTotal lines table =
        readFrequenciesLoop LogTotal (lines.takeWhile (fun l => !stopsScan F l)) table := by
  induction lines with
  | nil => intro table; rfl
  | cons text rest ih =>
    intro table
    cases hstop : stopsScan F text with
    | true =>
      rw [readFrequenciesLoop_stop LogTotal text rest table hstop]
      simp only [List.takeWhile, hstop, Bool.not_true]
      rfl
    | false =>
      simp only [List.takeWhile, hstop, Bool.not_false]
      by_cases h2 : (Fields text).length ≥ 2
      · have hp : (Float64Lib.ParseFloat (F := F)
            ((Fields text).getD ((Fields text).length - 1) "")).2 = true := by
          simp only [stopsScan, Bool.and_eq_false_iff, decide_eq_false_iff_not,
            Bool.not_eq_false'] at hstop
          rcases hstop with h | h
          · exact absurd h2 h
          · exact h
        rw [readFrequenciesLoop_good LogTotal text _ table h2 hp,
          readFrequenciesLoop_good LogTotal text _ table h2 hp]
        exact ih _
      · rw [readFrequenciesLoop_short LogTotal text _ table (by omega),
          readFrequenciesLoop_short LogTotal text _ table (by omega)]
        exact ih _

theorem readFrequenciesLoop_skip (LogTotal : F) (before : List String) (text : String)
    (after : List String) (h : (Fields text).length < 2) :
    ∀ table : String → Option F,
      readFrequenciesLoop LogTotal (before ++ text :: after) table =
        readFrequenciesLoop LogTotal (before ++ after) table := by
  induction before with
  | nil => intro table; exact readFrequenciesLoop_short LogTotal text after table h
  | cons l rest ih =>
    intro table
    simp only [List.cons_append, readFrequenciesLoop]
    split
    · split
      · exact ih _
      · rfl
    · exact ih _

theorem readFrequenciesLoop_stored (LogTotal : F) (lines : List String) :
    ∀ table : String → Option F,
      readFrequenciesLoop LogTotal lines table =
        (storedLines F lines).foldl (storeLine LogTotal) table := by
  induction lines with
  | nil => intro table; rfl
  | cons text rest ih =>
    intro table
    cases hstop : stopsScan F text with
    | true =>
      rw [readFrequenciesLoop_stop LogTotal text rest table hstop]
      simp only [storedLines, List.takeWhile, hstop, Bool.not_true, List.filter_nil,
        List.foldl_nil]
    | false =>
      by_cases h2 : (Fields text).length ≥ 2
      · have hp : (Float64Lib.ParseFloat (F := F)
            ((Fields text).getD ((Fields text).length - 1) "")).2 = true := by
          simp only [stopsScan, Bool.and_eq_false_iff, decide_eq_false_iff_not,
            Bool.not_eq_false'] at hstop
          rcases hstop with h | h
          · exact absurd h2 h
          · exact h
        rw [readFrequenciesLoop_good LogTotal text _ table h2 hp, ih]
        simp only [storedLines, List.takeWhile, hstop, Bool.not_false, List.filter_cons,
          decide_eq_true h2, if_true, List.foldl_cons]
        rfl
      · rw [readFrequenciesLoop_short LogTotal text _ table (by omega), ih]
        simp only [storedLines, List.takeWhile, hstop, Bool.not_false, List.filter_cons,
          decide_eq_false h2, Bool.false_eq_true, if_false]

theorem foldl_storeLine_keeps (LogTotal : F) (ls : List String) :
    ∀ (table : String → Option F) (key : String), table key ≠ none →
      (ls.foldl (storeLine LogTotal) table) key ≠ none := by
  induction ls with
  | nil => intro table key h; exact h
  | cons l rest ih =>
    intro table key h
    rw [List.foldl_cons]
    apply ih
    unfold storeLine tableSet
    split
    · exact Option.some_ne_none _
    · exact h

theorem foldl_storeLine_mem (LogTotal : F) (ls : List String) :
    ∀ (table : String → Option F) (l : String), l ∈ ls →
      (ls.foldl (storeLine LogTotal) table) (lineKey l) ≠ none := by
  induction ls with
  | nil => intro table l h; exact absurd h (List.not_mem_nil l)
  | cons x rest ih =>
    intro table l h
    rw [List.foldl_cons]
    rcases List.mem_cons.1 h with rfl | h
    · apply foldl_storeLine_keeps
      unfold storeLine tableSet
      rw [if_pos rfl]
      exact Option.some_ne_none _
    · exact ih _ l h

theorem foldl_storeLine_other (LogTotal : F) (key : String) (ls : List String) :
    ∀ table : String → Option F, (∀ l ∈ ls, lineKey l ≠ key) →
      (ls.foldl (storeLine LogTotal) table) key = table key := by
  induction ls with
  | nil => intro table _; rfl
  | cons x rest ih =>
    intro table h
    rw [List.foldl_cons, ih _ (fun l hl => h l (List.mem_cons_of_mem _ hl))]
    unfold storeLine tableSet
    rw [if_neg (fun hk => h x (List.mem_cons_self _ _) hk.symm)]

theorem foldl_storeLine_last (LogTotal : F) (before : List String) (text : String)
    (after : List String) (hafter : ∀ l ∈ after, lineKey l ≠ lineKey text) :
    ∀ table : String → Option F,
      ((before ++ text :: after).foldl (storeLine LogTotal) table) (lineKey text) =
        some (Float64Lib.sub (Float64Lib.Log2 (lineFreq F text)) LogTotal) := by
  intro table
  rw [List.foldl_append, List.foldl_cons, foldl_storeLine_other LogTotal _ after _ hafter]
  unfold storeLine tableSet
  rw [if_pos rfl]

end Build

/-- C12: for every list of lines, the table built by `readFrequencies` is the
table built from the lines before the first line that has at least 2 fields and
a last field that does not parse (that line and all later ones add nothing);
a line with fewer than 2 fields adds nothing and does not stop the scan.  The
table is the one got by storing, in order, every line of at least 2 fields that
comes before the first stopping line: each such line has its key in the table,
with the value of the last such line of that key, and a key of no such line
keeps the entry it had. -/
theorem readFrequencies_fail_soft {F : Type} [Float64Lib F] (LogTotal : F)
    (table : String → Option F) (lines : List String) :
    readFrequencies (some lines) LogTotal table =
      (storedLines F lines).foldl (storeLine LogTotal) table ∧
    readFrequencies (some lines) LogTotal table =
      readFrequencies (some (lines.takeWhile (fun l => !stopsScan F l))) LogTotal table ∧
    (∀ (before : List String) (text : String) (after : List String),
      lines = before ++ text :: after → (Fields text).length < 2 →
      readFrequencies (some lines) LogTotal table =
        readFrequencies (some (before ++ after)) LogTotal table) ∧
    (∀ l ∈ storedLines F lines, readFrequencies (some lines) LogTotal table (lineKey l) ≠ none) ∧
    (∀ (before : List String) (text : String) (after : List String),
      storedLines F lines = before ++ text :: after →
      (∀ l ∈ after, lineKey l ≠ lineKey text) →
      readFrequencies (some lines) LogTotal table (lineKey text) =
        some (Float64Lib.sub (Float64Lib.Log2 (lineFreq F text)) LogTotal)) ∧
    (∀ key, (∀ l ∈ storedLines F lines, lineKey l ≠ key) →
      readFrequencies (some lines) LogTotal table key = table key) := by
  have hstored : readFrequencies (some lines) LogTotal table =
      (storedLines F lines).foldl (storeLine LogTotal) table :=
    readFrequenciesLoop_stored LogTotal lines table
  refine ⟨hstored, readFrequenciesLoop_takeWhile LogTotal lines table, ?_, ?_, ?_, ?_⟩
  · intro before text after hl h
    rw [hl]
    exact readFrequenciesLoop_skip LogTotal before text after h table
  · intro l hl
    rw [hstored]
    exact foldl_storeLine_mem LogTotal _ table l hl
  · intro before text after hdec hafter
    rw [hstored, hdec]
    exact foldl_storeLine_last LogTotal before text after hafter table
  · intro key hkey
    rw [hstored]
    exact foldl_storeLine_other LogTotal key _ table hkey

theorem storedLines_test :
    storedLines IntFloat ["a 2", "zz", "b 4", "c x", "d 8"] = ["a 2", "b 4"] := by
  decide

theorem readFrequencies_fail_soft_test :
    readFrequencies (F := IntFloat) (some ["a 2", "zz", "b 4", "c x", "d 8"]) (.fin 3)
        (fun _ => none) "a" = some (.fin (-2)) ∧
    readFrequencies (F := IntFloat) (some ["a 2", "zz", "b 4", "c x", "d 8"]) (.fin 3)
        (fun _ => none) "b" = some (.fin (-1)) ∧
    readFrequencies (F := IntFloat) (some ["a 2", "zz", "b 4", "c x", "d 8"]) (.fin 3)
        (fun _ => none) "c" = none ∧
    readFrequencies (F := IntFloat) (some ["a 2", "zz", "b 4", "c x", "d 8"]) (.fin 3)
        (fun _ => none) "d" = none ∧
    readFrequencies (F := IntFloat) (some ["a 2", "zz", "b 4", "c x", "d 8"]) (.fin 3)
        (fun _ => none) "zz" = none := by
  refine ⟨by decide, by decide, by decide, by decide, by decide⟩

/-! ## The values of a table -/

section Values

variable {F : Type} [Float64Lib F]

theorem readTotalLoop_first (before : List String) (text : String) (after : List String)
    (hbefore : ∀ l ∈ before, (Float64Lib.ParseFloat (F := F) l).2 = false)
    (htext : (Float64Lib.ParseFloat (F := F) text).2 = true) :
    ∀ r : F × Bool,
      readTotalLoop (before ++ text :: after) r = Float64Lib.ParseFloat (F := F) text := by
  induction before with
  | nil =>
    intro r
    simp only [List.nil_append, readTotalLoop, htext, if_true]
  | cons l rest ih =>
    intro r
    have hl := hbefore l (List.mem_cons_self _ _)
    simp only [List.cons_append, readTotalLoop, hl]
    exact ih (fun l1 h1 => hbefore l1 (List.mem_cons_of_mem _ h1)) _

theorem readFrequenciesLoop_other (LogTotal : F) (key : String) (lines : List String) :
    ∀ table : String → Option F,
      (∀ l ∈ lines, lineKey l ≠ key) →
      readFrequenciesLoop LogTotal lines table key = table key := by
  induction lines with
  | nil => intro table _; rfl
  | cons text rest ih =>
    intro table hk
    have hrest : ∀ l ∈ rest, lineKey l ≠ key := fun l hl => hk l (List.mem_cons_of_mem _ hl)
    have htext : key ≠ lineKey text := fun h => hk text (List.mem_cons_self _ _) h.symm
    simp only [readFrequenciesLoop]
    split
    · split
      · rw [ih _ hrest]
        show (if key = lineKey text then _ else _) = _
        rw [if_neg htext]
      · rfl
    · exact ih _ hrest

theorem readFrequenciesLoop_last (LogTotal : F) (before : List String) (text : String)
    (after : List String)
    (hgood : ∀ l ∈ before ++ text :: after, (Fields l).length ≥ 2 ∧
      (Float64Lib.ParseFloat (F := F) ((Fields l).getD ((Fields l).length - 1) "")).2 = true)
    (hafter : ∀ l ∈ after, lineKey l ≠ lineKey text) :
    ∀ table : String → Option F,
      readFrequenciesLoop LogTotal (before ++ text :: after) table (lineKey text) =
        some (Float64Lib.sub (Float64Lib.Log2 (lineFreq F text)) LogTotal) := by
  induction before with
  | nil =>
    intro table
    have hg := hgood text (List.mem_cons_self _ _)
    rw [List.nil_append, readFrequenciesLoop_good LogTotal text after table hg.1 hg.2,
      readFrequenciesLoop_other LogTotal (lineKey text) after _ hafter]
    show (if lineKey text = lineKey text then _ else _) = _
    rw [if_pos rfl]
  | cons l rest ih =>
    intro table
    have hg := hgood l (List.mem_cons_self _ _)
    rw [List.cons_append, readFrequenciesLoop_good LogTotal l _ table hg.1 hg.2]
    exact ih (fun l1 h1 => hgood l1 (List.mem_cons_of_mem _ h1)) _

end Values

theorem new_logProb_last {F : Type} [Float64 F] [Float64Lib F]
    (totalBefore : List String) (totalLine : String) (totalAfter : List String)
    (before : List String) (text : String) (after : List String)
    (hbefore : ∀ l ∈ totalBefore, (Float64Lib.ParseFloat (F := F) l).2 = false)
    (htotal : (Float64Lib.ParseFloat (F := F) totalLine).2 = true)
    (hT : Float64.eq (Float64Lib.ParseFloat (F := F) totalLine).1 Float64.zero = false)
    (hgood : ∀ l ∈ before ++ text :: after, (Fields l).length ≥ 2 ∧
      (Float64Lib.ParseFloat (F := F) ((Fields l).getD ((Fields l).length - 1) "")).2 = true)
    (hlast : ∀ l ∈ after, lineKey l ≠ lineKey text) :
    (ProbabilityDistribution.New (F := F) (some (totalBefore ++ totalLine :: totalAfter))
        (some (before ++ text :: after))).LogProb (lineKey text) =
      (Float64Lib.sub (Float64Lib.Log2 (lineFreq F text))
        (Float64Lib.Log2 (Float64Lib.ParseFloat (F := F) totalLine).1), true) := by
  apply logProb_of_mem
  simp only [ProbabilityDistribution.New, readTotal, readFrequencies,
    readTotalLoop_first totalBefore totalLine totalAfter hbefore htotal, hT]
  exact readFrequenciesLoop_last _ before text after hgood hlast _

theorem exists_last_with_key (key : String) (lines : List String) :
    (∃ l ∈ lines, lineKey l = key) →
    ∃ before text after, lines = before ++ text :: after ∧ lineKey text = key ∧
      ∀ l ∈ after, lineKey l ≠ key := by
  induction lines with
  | nil => rintro ⟨l, hl, _⟩; exact absurd hl (List.not_mem_nil l)
  | cons x rest ih =>
    rintro ⟨l, hl, hkey⟩
    by_cases hrest : ∃ l1 ∈ rest, lineKey l1 = key
    · obtain ⟨before, text, after, hdec, htext, hafter⟩ := ih hrest
      exact ⟨x :: before, text, after, by rw [hdec]; rfl, htext, hafter⟩
    · refine ⟨[], x, rest, rfl, ?_, fun l1 h1 hk => hrest ⟨l1, h1, hk⟩⟩
      rcases List.mem_cons.1 hl with h | h
      · rw [← h]; exact hkey
      · exact absurd ⟨l, h, hkey⟩ hrest

/-- C13: let the first line of the total source that parses give `T`, with
`T == 0.0` false (as for every `T > 0`), and let every line of the frequency
source have at least 2 fields and a last field that parses.  Then for the key
`k` of any line (all fields but the last, joined by single spaces) there is a
last line with key `k`, and `LogProb(k)` returns `(log2(f) - log2(T), true)`,
`f` being the frequency on that line. -/
theorem new_logProb_of_key {F : Type} [Float64 F] [Float64Lib F]
    (totalBefore : List String) (totalLine : String) (totalAfter : List String)
    (lines : List String) (line : String)
    (hbefore : ∀ l ∈ totalBefore, (Float64Lib.ParseFloat (F := F) l).2 = false)
    (htotal : (Float64Lib.ParseFloat (F := F) totalLine).2 = true)
    (hT : Float64.eq (Float64Lib.ParseFloat (F := F) totalLine).1 Float64.zero = false)
    (hgood : ∀ l ∈ lines, (Fields l).length ≥ 2 ∧
      (Float64Lib.ParseFloat (F := F) ((Fields l).getD ((Fields l).length - 1) "")).2 = true)
    (hline : line ∈ lines) :
    ∃ before last after, lines = before ++ last :: after ∧ lineKey last = lineKey line ∧
      (∀ l ∈ after, lineKey l ≠ lineKey line) ∧
      (ProbabilityDistribution.New (F := F) (some (totalBefore ++ totalLine :: totalAfter))
          (some lines)).LogProb (lineKey line) =
        (Float64Lib.sub (Float64Lib.Log2 (lineFreq F last))
          (Float64Lib.Log2 (Float64Lib.ParseFloat (F := F) totalLine).1), true) := by
  obtain ⟨before, last, after, hdec, hkey, hafter⟩ :=
    exists_last_with_key (lineKey line) lines ⟨line, hline, rfl⟩
  refine ⟨before, last, after, hdec, hkey, hafter, ?_⟩
  rw [hdec, ← hkey]
  rw [hdec] at hgood
  exact new_logProb_last totalBefore totalLine totalAfter before last after hbefore htotal hT
    hgood (fun l hl => by rw [hkey]; exact hafter l hl)

/-- C13, at the total source (`x`, `2097152`, `7`) and the frequency lines
`a 1048576`, `b c 4`, `a 2048`, `d 8`, for the key of the first line. -/
theorem new_logProb_of_key_witness :
    (∀ l ∈ ["x"], (Float64Lib.ParseFloat (F := IntFloat) l).2 = false) ∧
    (Float64Lib.ParseFloat (F := IntFloat) "2097152").2 = true ∧
    Float64.eq (Float64Lib.ParseFloat (F := IntFloat) "2097152").1 Float64.zero = false ∧
    (∀ l ∈ ["a 1048576", "b\tc\t4", "a 2048", "d 8"], (Fields l).length ≥ 2 ∧
      (Float64Lib.ParseFloat (F := IntFloat)
        ((Fields l).getD ((Fields l).length - 1) "")).2 = true) ∧
    "a 1048576" ∈ ["a 1048576", "b\tc\t4", "a 2048", "d 8"] ∧
    ∃ before last after, ["a 1048576", "b\tc\t4", "a 2048", "d 8"] = before ++ last :: after ∧
      lineKey last = lineKey "a 1048576" ∧
      (∀ l ∈ after, lineKey l ≠ lineKey "a 1048576") ∧
      (ProbabilityDistribution.New (F := IntFloat) (some (["x"] ++ "2097152" :: ["7"]))
          (some ["a 1048576", "b\tc\t4", "a 2048", "d 8"])).LogProb (lineKey "a 1048576") =
        (Float64Lib.sub (Float64Lib.Log2 (lineFreq IntFloat last))
          (Float64Lib.Log2 (Float64Lib.ParseFloat (F := IntFloat) "2097152").1), true) :=
  ⟨by decide, by decide, by decide, by decide, by decide,
    new_logProb_of_key ["x"] "2097152" ["7"] ["a 1048576", "b\tc\t4", "a 2048", "d 8"]
      "a 1048576" (by decide) (by decide) (by decide) (by decide) (by decide)⟩

theorem new_logProb_test :
    (ProbabilityDistribution.New (F := IntFloat) (some ["x", "2097152", "7"])
        (some ["a 1048576", "b\tc\t4", "a 2048", "d 8"])).LogProb "a"
      = (IntFloat.fin (-10), true) ∧
    (ProbabilityDistribution.New (F := IntFloat) (some ["x", "2097152", "7"])
        (some ["a 1048576", "b\tc\t4", "a 2048", "d 8"])).LogProb "b c"
      = (IntFloat.fin (-19), true) := by
  refine ⟨by decide, by decide⟩

theorem lineKey_of_the : lineKey "of\tthe\t4090128330" = "of the" := by decide

/-- C14: when the total source and the frequency source are both missing (the
open fails) or unreadable (no line is read), the table built by `New` has
LogTotal `32.0` and no entry, and `LogProb` of every key returns negative
infinity and `false`; `New` returns the table and no error. -/
theorem new_missing_sources {F : Type} [Float64 F] [Float64Lib F]
    (hzero : Float64.eq (Float64.zero : F) Float64.zero = true)
    (total_file data_file : Source)
    (htotal : total_file = none ∨ total_file = some [])
    (hdata : data_file = none ∨ data_file = some []) :
    (ProbabilityDistribution.New (F := F) total_file data_file).LogTotal
      = Float64Lib.thirtyTwo ∧
    (∀ key, (ProbabilityDistribution.New (F := F) total_file data_file).table key = none) ∧
    ∀ key, (ProbabilityDistribution.New (F := F) total_file data_file).LogProb key
      = (Float64.negInf, false) := by
  have hTot : (readTotal (F := F) total_file).1 = Float64.zero := by
    rcases htotal with h | h <;> rw [h] <;> rfl
  have hTab : ∀ (LogTotal : F) key, readFrequencies data_file LogTotal (fun _ => none) key
      = none := by
    intro LogTotal key
    rcases hdata with h | h <;> rw [h] <;> rfl
  refine ⟨?_, ?_, ?_⟩
  · simp only [ProbabilityDistribution.New, hTot, hzero, if_true]
  · intro key
    exact hTab _ key
  · intro key
    exact logProb_of_not_mem _ key (hTab _ key)

/-- C14, at two missing sources. -/
theorem new_missing_sources_witness :
    Float64.eq (Float64.zero : IntFloat) Float64.zero = true ∧
    ((none : Source) = none ∨ (none : Source) = some []) ∧
    (ProbabilityDistribution.New (F := IntFloat) none none).LogTotal = IntFloat.fin 32 ∧
    (ProbabilityDistribution.New (F := IntFloat) none none).LogTotal
      = Float64Lib.thirtyTwo ∧
    (∀ key, (ProbabilityDistribution.New (F := IntFloat) none none).table key = none) ∧
    ∀ key, (ProbabilityDistribution.New (F := IntFloat) none none).LogProb key
      = (Float64.negInf, false) :=
  ⟨by decide, Or.inl rfl, by decide,
    new_missing_sources (by decide) none none (Or.inl rfl) (Or.inl rfl)⟩

/-! ## Order facts used by the search -/

section GeFacts

variable {F : Type} [Float64 F]

theorem ge_iff_not_lt (ho : Float64.Ordered F) {x y : F}
    (hx : Float64.isNaN x = false) (hy : Float64.isNaN y = false) :
    Float64.ge x y = true ↔ Float64.lt x y = false := by
  unfold Float64.ge
  constructor
  · intro h
    rcases Bool.or_eq_true_iff.1 h with h | h
    · exact ho.lt_asymm _ _ h
    · exact ((ho.eq_iff x y hx hy).1 h).1
  · intro h
    cases hyx : Float64.lt y x with
    | true => simp
    | false => simp [(ho.eq_iff x y hx hy).2 ⟨h, hyx⟩]

theorem ge_refl (ho : Float64.Ordered F) {x : F} (hx : Float64.isNaN x = false) :
    Float64.ge x x = true := by
  rw [ge_iff_not_lt ho hx hx]
  cases h : Float64.lt x x with
  | false => rfl
  | true => rw [ho.lt_asymm _ _ h] at h; cases h

theorem ge_trans (ho : Float64.Ordered F) {x y z : F}
    (hx : Float64.isNaN x = false) (hy : Float64.isNaN y = false)
    (hz : Float64.isNaN z = false)
    (h1 : Float64.ge x y = true) (h2 : Float64.ge y z = true) : Float64.ge x z = true := by
  rw [ge_iff_not_lt ho hx hy] at h1
  rw [ge_iff_not_lt ho hy hz] at h2
  rw [ge_iff_not_lt ho hx hz]
  cases h : Float64.lt x z with
  | false => rfl
  | true =>
    rcases ho.lt_cotrans x y z hy h with h3 | h3
    · rw [h1] at h3; cases h3
    · rw [h2] at h3; cases h3

theorem lt_trans_of_ordered (ho : Float64.Ordered F) {x y z : F}
    (hz : Float64.isNaN z = false)
    (h1 : Float64.lt x y = true) (h2 : Float64.lt y z = true) : Float64.lt x z = true := by
  rcases ho.lt_cotrans x z y hz h1 with h | h
  · exact h
  · rw [ho.lt_asymm _ _ h2] at h; cases h

end GeFacts

theorem intFloat_addMonotone : Float64.AddMonotone IntFloat := by
  intro a x y hax hay h
  cases a <;> cases x <;> cases y <;>
    simp_all [Float64.add, IntFloat.add, Float64.ge, Float64.lt, Float64.eq,
      Float64.isNaN, IntFloat.lt, IntFloat.eq]

theorem intFloat_proper_add (x y : IntFloat) (hx : IntFloat.Proper x)
    (hy : IntFloat.Proper y) : IntFloat.Proper (Float64.add x y) := by
  cases x <;> cases y <;> simp_all [IntFloat.Proper, Float64.add, IntFloat.add]

theorem intFloat_proper_not_nan (x : IntFloat) (hx : IntFloat.Proper x) :
    Float64.isNaN x = false := by
  cases x <;> simp_all [IntFloat.Proper, Float64.isNaN, Float64.eq, IntFloat.eq]

theorem tableOf_proper (entries : List (String × Int)) (key : String) (v : IntFloat)
    (h : tableOf entries key = some v) : IntFloat.Proper v := by
  unfold tableOf at h
  cases hl : entries.lookup key with
  | none => rw [hl] at h; cases h
  | some x =>
    rw [hl] at h
    simp only [Option.map_some', Option.some.injEq] at h
    rw [← h]
    constructor <;> intro hc <;> cases hc

/-- On `IntFloat`, with unigram values other than NaN and +infinity, no sum of
unigram log-probabilities is NaN. -/
theorem unigramScore_not_nan (a : Analyzer IntFloat)
    (huni : a.UnigramProbabilityDistribution.ValuesIn IntFloat.Proper)
    (tokens : List String) : Float64.isNaN (a.unigramScore tokens) = false := by
  apply intFloat_proper_not_nan
  induction tokens with
  | nil => constructor <;> intro h <;> cases h
  | cons t rest ih =>
    apply intFloat_proper_add _ _ _ ih
    unfold Analyzer.LogProb
    cases h : a.UnigramProbabilityDistribution.table t with
    | none =>
      rw [logProb_of_not_mem _ _ h]
      constructor <;> intro hc <;> cases hc
    | some v =>
      rw [logProb_of_mem _ _ v h]
      exact huni t v h

/-! ## The search with an empty bigram table -/

theorem split_complete {F : Type} (a : Analyzer F) (text : String) (splits : Splits)
    (h : a.Split text = .ok splits) (t r : String) (hcat : t ++ r = text)
    (hlen : 1 ≤ t.length) (hmax : (t.length : Int) ≤ a.MaxTokenLength) :
    (t, r) ∈ splits := by
  have hm := split_ok_nonneg a text splits h
  rw [split_eq a text hm] at h
  injection h with h
  subst h
  have hdata : text.data = t.data ++ r.data := by rw [← hcat]; exact String.data_append t r
  apply List.mem_map.2
  refine ⟨t.length - 1, List.mem_range.2 ?_, ?_⟩
  · have hl : 1 ≤ t.data.length := hlen
    have hmx : (t.data.length : Int) ≤ a.MaxTokenLength := hmax
    show t.data.length - 1 < min text.data.length a.MaxTokenLength.toNat
    rw [hdata, List.length_append]
    omega
  · have hl : 1 ≤ t.data.length := hlen
    have h1 : t.length - 1 + 1 = t.data.length := by
      show t.data.length - 1 + 1 = t.data.length
      omega
    rw [h1, hdata, List.take_left, List.drop_left]

theorem isSegmentation_empty_iff {F : Type} (a : Analyzer F) (tokens : List String)
    (h : a.IsSegmentation "" tokens) : tokens = [] := by
  cases tokens with
  | nil => rfl
  | cons t rest =>
    exfalso
    have hne := (h.2 t (List.mem_cons_self _ _)).1
    have hj := h.1
    rw [joinTokens_cons] at hj
    have hd := congrArg String.data hj
    rw [String.data_append] at hd
    have ht : t.data = [] := (List.append_eq_nil.1 hd).1
    exact hne (String.ext ht)

theorem isSegmentation_cons {F : Type} (a : Analyzer F) (text t : String) (rest : List String)
    (h : a.IsSegmentation text (t :: rest)) :
    t ++ joinTokens rest = text ∧ 1 ≤ t.length ∧ (t.length : Int) ≤ a.MaxTokenLength ∧
      a.IsSegmentation (joinTokens rest) rest := by
  have ht := h.2 t (List.mem_cons_self _ _)
  refine ⟨by rw [← joinTokens_cons]; exact h.1, ?_, ht.2,
    rfl, fun q hq => h.2 q (List.mem_cons_of_mem _ hq)⟩
  rcases Nat.eq_zero_or_pos t.length with h0 | h0
  · exact absurd (string_length_zero h0) ht.1
  · exact h0

section Unigram

variable {F : Type} [Float64 F]

theorem logProbTextGivenPrevious_unigram (a : Analyzer F)
    (hbi : ∀ key, a.BigramProbabilityDistribution.table key = none)
    (token previous : String) :
    a.LogProbTextGivenPrevious token previous = a.LogProb token := by
  simp [Analyzer.LogProbTextGivenPrevious, Analyzer.LogProb,
    logProb_of_not_mem _ _ (hbi (previous ++ " " ++ token))]

theorem segmentLoop_mono (a : Analyzer F)
    (recurse : String → String → Int → Memo F → Except Fault (ProbTuple F × Memo F))
    (previous : String) (n : Int) (splits : Splits) :
    ∀ (pts : ProbTuples F) (memo : Memo F) (pts1 : ProbTuples F) (memo1 : Memo F),
      segmentLoop a recurse previous n splits pts memo = .ok (pts1, memo1) →
      ∀ c ∈ pts, c ∈ pts1 := by
  induction splits with
  | nil =>
    intro pts memo pts1 memo1 h c hcm
    simp only [segmentLoop, Except.ok.injEq, Prod.mk.injEq] at h
    rw [← h.1]; exact hcm
  | cons x xs ih =>
    intro pts memo pts1 memo1 h c hcm
    simp only [segmentLoop] at h
    split at h
    · cases h
    · exact ih _ _ _ _ h c (List.mem_append_left _ hcm)

theorem segmentLoop_best (hmono : Float64.AddMonotone F) (a : Analyzer F)
    (hbi : ∀ key, a.BigramProbabilityDistribution.table key = none)
    (hscore : ∀ tokens, Float64.isNaN (a.unigramScore tokens) = false)
    (recurse : String → String → Int → Memo F → Except Fault (ProbTuple F × Memo F))
    (text previous : String) (n : Int)
    (hrec : ∀ (rem first : String) (k : Int) (memo : Memo F), rem.length < text.length →
      a.MemoBest memo → ∃ pt memo1, recurse rem first k memo = .ok (pt, memo1) ∧
        a.IsBest rem pt ∧ a.MemoBest memo1)
    (splits : Splits) :
    ∀ (pts : ProbTuples F) (memo : Memo F),
      (∀ p ∈ splits, p.1 ++ p.2 = text ∧ 1 ≤ p.1.length ∧
        (p.1.length : Int) ≤ a.MaxTokenLength ∧ p.2.length < text.length) →
      (∀ c ∈ pts, a.IsSegmentation text c.Tokens ∧ c.LogProb = a.unigramScore c.Tokens) →
      a.MemoBest memo →
      ∃ pts1 memo1, segmentLoop a recurse previous n splits pts memo = .ok (pts1, memo1) ∧
        (∀ c ∈ pts1, a.IsSegmentation text c.Tokens ∧ c.LogProb = a.unigramScore c.Tokens) ∧
        a.MemoBest memo1 ∧
        ∀ p ∈ splits, ∃ c ∈ pts1, ∀ rest, a.IsSegmentation p.2 rest →
          Float64.ge c.LogProb (a.unigramScore (p.1 :: rest)) = true := by
  induction splits with
  | nil =>
    intro pts memo _ hpts hmemo
    exact ⟨pts, memo, rfl, hpts, hmemo, fun p hp => absurd hp (List.not_mem_nil p)⟩
  | cons p rest ih =>
    intro pts memo hsplits hpts hmemo
    obtain ⟨hcat, hlen, hmax, hrem⟩ := hsplits p (List.mem_cons_self _ _)
    obtain ⟨r, memo1, hr, hbest, hmemo1⟩ := hrec p.2 p.1 (n + 1) memo hrem hmemo
    have hcur : (r.Combine (a.LogProbTextGivenPrevious p.1 previous).1 p.1).LogProb
        = a.unigramScore (p.1 :: r.Tokens) := by
      show Float64.add _ r.LogProb = Float64.add _ (a.unigramScore r.Tokens)
      rw [logProbTextGivenPrevious_unigram a hbi, hbest.2.1]
    obtain ⟨pts1, memo2, hloop, hpts1, hmemo2, hcover⟩ :=
      ih (pts ++ [r.Combine (a.LogProbTextGivenPrevious p.1 previous).1 p.1]) memo1
        (fun q hq => hsplits q (List.mem_cons_of_mem _ hq))
        (by
          intro c hcm
          rcases List.mem_append.1 hcm with hcm | hcm
          · exact hpts c hcm
          · rw [List.mem_singleton.1 hcm]
            exact ⟨isSegmentation_combine a text p r _ hcat hlen hmax hbest.1, hcur⟩)
        hmemo1
    refine ⟨pts1, memo2, by simp only [segmentLoop, hr]; exact hloop, hpts1, hmemo2, ?_⟩
    intro q hq
    rcases List.mem_cons.1 hq with rfl | hq
    · have hin : r.Combine (a.LogProbTextGivenPrevious q.1 previous).1 q.1 ∈ pts1 :=
        segmentLoop_mono a recurse previous n rest _ memo1 pts1 memo2 hloop _
          (List.mem_append_right _ (List.mem_singleton.2 rfl))
      refine ⟨_, hin, fun toks htoks => ?_⟩
      rw [hcur]
      show Float64.ge (Float64.add (a.LogProb q.1).1 (a.unigramScore r.Tokens))
        (Float64.add (a.LogProb q.1).1 (a.unigramScore toks)) = true
      apply hmono
      · exact hscore (q.1 :: r.Tokens)
      · exact hscore (q.1 :: toks)
      · rw [← hbest.2.1]
        exact hbest.2.2 toks htoks
    · exact hcover q hq

end Unigram

theorem segmentRecurse_best {F : Type} [Float64 F] (ho : Float64.Ordered F)
    (hmono : Float64.AddMonotone F) (a : Analyzer F) (hm : 1 ≤ a.MaxTokenLength)
    (hbi : ∀ key, a.BigramProbabilityDistribution.table key = none)
    (hscore : ∀ tokens, Float64.isNaN (a.unigramScore tokens) = false) (fuel : Nat) :
    ∀ (text previous : String) (n : Int) (memo : Memo F), text.length < fuel →
      a.MemoBest memo → ∃ pt memo1, a.SegmentRecurse fuel text previous n memo = .ok (pt, memo1) ∧
        a.IsBest text pt ∧ a.MemoBest memo1 := by
  induction fuel with
  | zero => intro text _ _ _ h; exact absurd h (Nat.not_lt_zero _)
  | succ fuel ih =>
    intro text previous n memo hfuel hmemo
    by_cases h0 : text.length = 0
    · rw [Analyzer.SegmentRecurse, if_pos h0]
      refine ⟨_, _, rfl, ?_, hmemo⟩
      rw [string_length_zero h0]
      refine ⟨isSegmentation_nil a, rfl, fun toks htoks => ?_⟩
      rw [isSegmentation_empty_iff a toks htoks]
      exact ge_refl ho (hscore [])
    · cases hlook : memo text with
      | some val =>
        rw [Analyzer.SegmentRecurse, if_neg h0]
        simp only [hlook]
        exact ⟨val, memo, rfl, hmemo text val hlook, hmemo⟩
      | none =>
        have hsplit := split_eq a text (by omega)
        obtain ⟨pts1, memo1, hloop, hpts1, hmemo1, hcover⟩ :=
          segmentLoop_best hmono a hbi hscore (a.SegmentRecurse fuel) text previous n
            (fun rem first k m hlen hms => ih rem first k m (by omega) hms)
            _ [] memo (split_mem a text _ hsplit)
            (fun t ht => absurd ht (List.not_mem_nil t)) hmemo
        have hne : pts1 ≠ [] := by
          intro hnil
          have hl := segmentLoop_length a _ previous n _ _ _ _ _ hloop
          have hs := split_length a text _ hsplit hm h0
          rw [hnil] at hl
          simp only [List.length_nil, Nat.zero_add] at hl
          exact hs (List.length_eq_zero.1 hl.symm)
        rw [segmentRecurse_step a fuel text previous n memo _ h0 hlook hsplit, hloop]
        have hin := (max_mem pts1 hne).2
        have hnan : ∀ c ∈ pts1, Float64.isNaN c.LogProb = false := by
          intro c hcm
          rw [(hpts1 c hcm).2]
          exact hscore _
        have hbest : a.IsBest text (ProbTuples.Max pts1).1 := by
          refine ⟨(hpts1 _ hin).1, (hpts1 _ hin).2, fun toks htoks => ?_⟩
          cases toks with
          | nil =>
            exfalso
            have := htoks.1
            rw [joinTokens_nil] at this
            rw [← this] at h0
            exact h0 rfl
          | cons t rest =>
            obtain ⟨hcat, hlen, hmax, hrest⟩ := isSegmentation_cons a text t rest htoks
            have hmem := split_complete a text _ hsplit t (joinTokens rest) hcat hlen hmax
            obtain ⟨c, hcm, hge⟩ := hcover _ hmem
            have h1 := ge_of_not_less ho (hnan _ hin) (hnan c hcm)
              (max_not_less ho pts1 hnan c hcm)
            exact ge_trans ho (hnan _ hin) (hnan c hcm) (hscore _) h1 (hge rest hrest)
        refine ⟨_, _, rfl, hbest, ?_⟩
        intro k v hk
        unfold Memo.set at hk
        split at hk
        · rename_i hkt
          injection hk with hk
          rw [hkt, ← hk]
          exact hbest
        · exact hmemo1 k v hk

/-- C19: let the bigram table have no entries, let `MaxTokenLength >= 1`, and
let no sum of unigram log-probabilities be NaN (with unigram values that are
neither NaN nor +infinity a sum is NaN only after an overflow to +infinity,
which the values `New` stores cannot reach).  Then every score
`LogProbTextGivenPrevious(token, previous)` is the unigram `LogProb(token)`, and
`Segment(text)` returns a segmentation of `text` whose sum of unigram
log-probabilities is `>=` that of every segmentation of `text` into non-empty
tokens of at most `MaxTokenLength` code points. -/
theorem segment_optimal_unigram {F : Type} [Float64 F] (ho : Float64.Ordered F)
    (hmono : Float64.AddMonotone F) (a : Analyzer F) (hm : 1 ≤ a.MaxTokenLength)
    (hbi : ∀ key, a.BigramProbabilityDistribution.table key = none)
    (hscore : ∀ tokens, Float64.isNaN (a.unigramScore tokens) = false) (text : String) :
    (∀ token previous, a.LogProbTextGivenPrevious token previous = a.LogProb token) ∧
    ∃ tokens, a.Segment text = .ok tokens ∧ a.IsSegmentation text tokens ∧
      ∀ other, a.IsSegmentation text other →
        Float64.ge (a.unigramScore tokens) (a.unigramScore other) = true := by
  refine ⟨logProbTextGivenPrevious_unigram a hbi, ?_⟩
  obtain ⟨pt, memo1, hrun, hbest, _⟩ :=
    segmentRecurse_best ho hmono a hm hbi hscore (text.length + 1) text "<S>" 0
      (fun _ => none) (Nat.lt_succ_self _) (fun k v hk => by cases hk)
  refine ⟨pt.Tokens, by simp only [Analyzer.Segment, hrun], hbest.1, fun other hother => ?_⟩
  rw [← hbest.2.1]
  exact hbest.2.2 other hother

/-- C19, at the text `ab` with the tables of `positiveAnalyzer`, which hold a
positive value: `Segment` returns `a`, `b`, of unigram score 1, and `ab` scores
0. -/
theorem segment_optimal_unigram_witness :
    Float64.Ordered IntFloat ∧ Float64.AddMonotone IntFloat ∧
    1 ≤ positiveAnalyzer.MaxTokenLength ∧
    (∀ key, positiveAnalyzer.BigramProbabilityDistribution.table key = none) ∧
    (∀ tokens, Float64.isNaN (positiveAnalyzer.unigramScore tokens) = false) ∧
    positiveAnalyzer.Segment "ab" = .ok ["a", "b"] ∧
    positiveAnalyzer.unigramScore ["a", "b"] = IntFloat.fin 1 ∧
    positiveAnalyzer.unigramScore ["ab"] = IntFloat.fin 0 ∧
    ((∀ token previous,
        positiveAnalyzer.LogProbTextGivenPrevious token previous
          = positiveAnalyzer.LogProb token) ∧
      ∃ tokens, positiveAnalyzer.Segment "ab" = .ok tokens ∧
        positiveAnalyzer.IsSegmentation "ab" tokens ∧
        ∀ other, positiveAnalyzer.IsSegmentation "ab" other →
          Float64.ge (positiveAnalyzer.unigramScore tokens)
            (positiveAnalyzer.unigramScore other) = true) :=
  ⟨intFloat_ordered, intFloat_addMonotone, by decide, fun _ => rfl,
    unigramScore_not_nan positiveAnalyzer (fun key v h => tableOf_proper _ key v h),
    by decide, by decide, by decide,
    segment_optimal_unigram intFloat_ordered intFloat_addMonotone positiveAnalyzer (by decide)
      (fun _ => rfl)
      (unigramScore_not_nan positiveAnalyzer (fun key v h => tableOf_proper _ key v h)) "ab"⟩

theorem segment_optimal_unigram_test :
    unigramAnalyzer.Segment "abc" = .ok ["ab", "c"] ∧
    unigramAnalyzer.unigramScore ["ab", "c"] = IntFloat.fin (-11) ∧
    unigramAnalyzer.unigramScore ["a", "b", "c"] = IntFloat.fin (-12) := by
  refine ⟨by decide, by decide, by decide⟩

/-! ## Ties between candidates -/

section Ties

variable {F : Type} [Float64 F]

theorem less_eq_lt (ho : Float64.Ordered F) {x y : ProbTuple F}
    (hx : Float64.isNaN x.LogProb = false) (hy : Float64.isNaN y.LogProb = false)
    (hj : joinTokens x.Tokens = joinTokens y.Tokens) :
    x.Less y = Float64.lt x.LogProb y.LogProb := by
  unfold ProbTuple.Less
  cases heq : Float64.eq x.LogProb y.LogProb with
  | false => simp
  | true =>
    rw [((ho.eq_iff _ _ hx hy).1 heq).1, hj]
    simp only [if_true]
    cases hs : strLt (joinTokens y.Tokens) (joinTokens y.Tokens) with
    | false => rfl
    | true => rw [strLt_asymm hs] at hs; cases hs

theorem maxLoop_first (ho : Float64.Ordered F) (text : String) (l : List (ProbTuple F)) :
    ∀ best : ProbTuple F, Float64.isNaN best.LogProb = false →
      joinTokens best.Tokens = text →
      (∀ c ∈ l, Float64.isNaN c.LogProb = false ∧ joinTokens c.Tokens = text) →
      (maxLoop best l = best ∧ ∀ c ∈ l, Float64.lt best.LogProb c.LogProb = false) ∨
      ∃ pre r post, l = pre ++ r :: post ∧ maxLoop best l = r ∧
        Float64.lt best.LogProb r.LogProb = true ∧
        ∀ c ∈ pre, Float64.lt c.LogProb r.LogProb = true := by
  induction l with
  | nil => intro best _ _ _; exact Or.inl ⟨rfl, fun c hc => absurd hc (List.not_mem_nil c)⟩
  | cons x rest ih =>
    intro best hb hjb hl
    obtain ⟨hx, hjx⟩ := hl x (List.mem_cons_self _ _)
    have hrest : ∀ c ∈ rest, Float64.isNaN c.LogProb = false ∧ joinTokens c.Tokens = text :=
      fun c hc => hl c (List.mem_cons_of_mem _ hc)
    have hless : best.Less x = Float64.lt best.LogProb x.LogProb :=
      less_eq_lt ho hb hx (by rw [hjb, hjx])
    unfold maxLoop
    cases hlt : Float64.lt best.LogProb x.LogProb with
    | true =>
      rw [hless, hlt]
      simp only [if_true]
      right
      rcases ih x hx hjx hrest with ⟨hres, _⟩ | ⟨pre, r, post, hdec, hres, hxr, hpre⟩
      · exact ⟨[], x, rest, rfl, hres, hlt, fun c hc => absurd hc (List.not_mem_nil c)⟩
      · have hr : Float64.isNaN r.LogProb = false :=
          (hrest r (by rw [hdec]; exact List.mem_append_right _ (List.mem_cons_self _ _))).1
        refine ⟨x :: pre, r, post, by rw [hdec]; rfl, hres,
          lt_trans_of_ordered ho hr hlt hxr, ?_⟩
        intro c hc
        rcases List.mem_cons.1 hc with rfl | hc
        · exact hxr
        · exact hpre c hc
    | false =>
      rw [hless, hlt]
      simp only [Bool.false_eq_true, if_false]
      rcases ih best hb hjb hrest with ⟨hres, hall⟩ | ⟨pre, r, post, hdec, hres, hbr, hpre⟩
      · left
        refine ⟨hres, fun c hc => ?_⟩
        rcases List.mem_cons.1 hc with rfl | hc
        · exact hlt
        · exact hall c hc
      · right
        refine ⟨x :: pre, r, post, by rw [hdec]; rfl, hres, hbr, ?_⟩
        intro c hc
        rcases List.mem_cons.1 hc with rfl | hc
        · rcases ho.lt_cotrans _ c.LogProb _ hx hbr with h | h
          · rw [hlt] at h; cases h
          · exact h
        · exact hpre c hc

theorem max_first (ho : Float64.Ordered F) (text : String) (slice : ProbTuples F)
    (hne : slice ≠ [])
    (hall : ∀ c ∈ slice, Float64.isNaN c.LogProb = false ∧ joinTokens c.Tokens = text) :
    ∃ i : Nat, slice[i]? = some (ProbTuples.Max slice).1 ∧
      ∀ (j : Nat) (c : ProbTuple F), j < i → slice[j]? = some c →
        Float64.lt c.LogProb (ProbTuples.Max slice).1.LogProb = true := by
  cases slice with
  | nil => exact absurd rfl hne
  | cons first rest =>
    obtain ⟨hf, hjf⟩ := hall first (List.mem_cons_self _ _)
    show ∃ i : Nat, (first :: rest)[i]? = some (maxLoop first (first :: rest)) ∧
      ∀ (j : Nat) (c : ProbTuple F), j < i → (first :: rest)[j]? = some c →
        Float64.lt c.LogProb (maxLoop first (first :: rest)).LogProb = true
    rcases maxLoop_first ho text (first :: rest) first hf hjf hall with
      ⟨hres, _⟩ | ⟨pre, r, post, hdec, hres, _, hpre⟩
    · refine ⟨0, by rw [hres, List.getElem?_cons_zero],
        fun j c hj _ => absurd hj (Nat.not_lt_zero _)⟩
    · refine ⟨pre.length, ?_, ?_⟩
      · rw [hres, hdec, List.getElem?_append_right (Nat.le_refl _), Nat.sub_self,
          List.getElem?_cons_zero]
      · intro j c hj hget
        rw [hres]
        apply hpre
        rw [hdec, List.getElem?_append_left hj] at hget
        exact List.getElem?_mem hget

end Ties

/-! ## The candidates of one call -/

theorem segmentLoop_heads {F : Type} [Float64 F] (a : Analyzer F)
    (recurse : String → String → Int → Memo F → Except Fault (ProbTuple F × Memo F))
    (previous : String) (n : Int) (splits : Splits) :
    ∀ (pts : ProbTuples F) (memo : Memo F) (pts1 : ProbTuples F) (memo1 : Memo F),
      segmentLoop a recurse previous n splits pts memo = .ok (pts1, memo1) →
      pts1.map (fun c => c.Tokens.head?) =
        pts.map (fun c => c.Tokens.head?) ++ splits.map (fun p => some p.1) := by
  induction splits with
  | nil =>
    intro pts memo pts1 memo1 h
    simp only [segmentLoop, Except.ok.injEq, Prod.mk.injEq] at h
    rw [← h.1]
    simp
  | cons p rest ih =>
    intro pts memo pts1 memo1 h
    simp only [segmentLoop] at h
    split at h
    · cases h
    · rw [ih _ _ _ _ h]
      simp [ProbTuple.Combine]

theorem split_head_length {F : Type} (a : Analyzer F) (text : String) (splits : Splits)
    (h : a.Split text = .ok splits) (i : Nat) (p : TwoStrings) (hp : splits[i]? = some p) :
    p.1.length = i + 1 := by
  have hm := split_ok_nonneg a text splits h
  rw [split_eq a text hm] at h
  injection h with h
  subst h
  rw [List.getElem?_map] at hp
  have hlt : i < (List.range (min text.data.length a.MaxTokenLength.toNat)).length := by
    by_contra hcon
    rw [List.getElem?_eq_none (by omega)] at hp
    cases hp
  rw [List.getElem?_eq_getElem hlt, List.getElem_range] at hp
  simp only [Option.map_some', Option.some.injEq] at hp
  rw [List.length_range] at hlt
  rw [← hp]
  show (List.take (i + 1) text.data).length = i + 1
  rw [List.length_take]
  omega

/-- C20: let `MaxTokenLength >= 1`, let the memo be sound (so is the fresh memo
of `Segment`, and so is the memo after the call), and let no candidate built for
`text` have a NaN LogProb.  For a non-empty text that is not a key of the memo,
the candidates `SegmentRecurse` builds come in the order of the pairs of
`Split`, the candidate of index `i` starting with the head of `i + 1` code
points; all of them concatenate to `text`, so the string comparison of `Less`
is false for any two of them and `Less` is the comparison of their LogProb; and
the tuple returned is the first candidate with the maximum LogProb: every
candidate before it, each of a shorter head, has a LogProb strictly below it. -/
theorem shortest_head_wins {F : Type} [Float64 F] (ho : Float64.Ordered F)
    (a : Analyzer F) (hm : 1 ≤ a.MaxTokenLength)
    (fuel : Nat) (text previous : String) (n : Int) (memo : Memo F)
    (hfuel : text.length < fuel + 1) (hne : text ≠ "") (hmiss : memo text = none)
    (hsound : a.MemoSound memo)
    (hnan : ∀ c ∈ a.candidates fuel text previous n memo, Float64.isNaN c.LogProb = false) :
    ∃ splits memo1,
      a.Split text = .ok splits ∧
      segmentLoop a (a.SegmentRecurse fuel) previous n splits [] memo
        = .ok (a.candidates fuel text previous n memo, memo1) ∧
      a.SegmentRecurse (fuel + 1) text previous n memo
        = .ok ((ProbTuples.Max (a.candidates fuel text previous n memo)).1,
            memo1.set text (ProbTuples.Max (a.candidates fuel text previous n memo)).1) ∧
      a.MemoSound
        (memo1.set text (ProbTuples.Max (a.candidates fuel text previous n memo)).1) ∧
      (a.candidates fuel text previous n memo).map (fun c => c.Tokens.head?)
        = splits.map (fun p => some p.1) ∧
      (∀ (i : Nat) (p : TwoStrings), splits[i]? = some p → p.1.length = i + 1) ∧
      (∀ c ∈ a.candidates fuel text previous n memo, joinTokens c.Tokens = text) ∧
      (∀ x ∈ a.candidates fuel text previous n memo,
        ∀ y ∈ a.candidates fuel text previous n memo,
        strLt (joinTokens x.Tokens) (joinTokens y.Tokens) = false ∧
        x.Less y = Float64.lt x.LogProb y.LogProb) ∧
      ∃ i : Nat,
        (a.candidates fuel text previous n memo)[i]?
          = some (ProbTuples.Max (a.candidates fuel text previous n memo)).1 ∧
        (∀ c ∈ a.candidates fuel text previous n memo,
          Float64.ge (ProbTuples.Max (a.candidates fuel text previous n memo)).1.LogProb
            c.LogProb = true) ∧
        ∀ (j : Nat) (c : ProbTuple F), j < i →
          (a.candidates fuel text previous n memo)[j]? = some c →
          Float64.lt c.LogProb
            (ProbTuples.Max (a.candidates fuel text previous n memo)).1.LogProb = true := by
  have h0 : ¬ text.length = 0 := fun h => hne (string_length_zero h)
  have hsplit := split_eq a text (by omega)
  obtain ⟨pts, memo1, hloop, hpts, hmemo1⟩ :=
    segmentLoop_sound a (a.SegmentRecurse fuel) text previous n
      (fun rem first k m hlen hms => segmentRecurse_sound a hm fuel rem first k m (by omega) hms)
      _ [] memo (split_mem a text _ hsplit)
      (fun t ht => absurd ht (List.not_mem_nil t)) hsound
  have hcand : a.candidates fuel text previous n memo = pts := by
    simp only [Analyzer.candidates, hsplit, hloop]
  rw [hcand] at hnan ⊢
  have hpne : pts ≠ [] := by
    intro hnil
    have hl := segmentLoop_length a _ previous n _ _ _ _ _ hloop
    have hs := split_length a text _ hsplit hm h0
    rw [hnil] at hl
    simp only [List.length_nil, Nat.zero_add] at hl
    exact hs (List.length_eq_zero.1 hl.symm)
  have hall : ∀ c ∈ pts, Float64.isNaN c.LogProb = false ∧ joinTokens c.Tokens = text :=
    fun c hcm => ⟨hnan c hcm, (hpts c hcm).1⟩
  have hin := (max_mem pts hpne).2
  refine ⟨_, memo1, hsplit, hloop, ?_, ?_, ?_, ?_, ?_, ?_, ?_⟩
  · rw [segmentRecurse_step a fuel text previous n memo _ h0 hmiss hsplit, hloop]
  · exact memoSound_set a memo1 text _ hmemo1 (hpts _ hin)
  · have := segmentLoop_heads a _ previous n _ _ _ _ _ hloop
    simpa using this
  · exact fun i p hp => split_head_length a text _ hsplit i p hp
  · exact fun c hcm => (hall c hcm).2
  · intro x hx y hy
    have hj : joinTokens x.Tokens = joinTokens y.Tokens := by
      rw [(hall x hx).2, (hall y hy).2]
    refine ⟨?_, less_eq_lt ho (hall x hx).1 (hall y hy).1 hj⟩
    rw [hj]
    cases hs : strLt (joinTokens y.Tokens) (joinTokens y.Tokens) with
    | false => rfl
    | true => rw [strLt_asymm hs] at hs; cases hs
  · obtain ⟨i, hi, hbefore⟩ := max_first ho text pts hpne hall
    refine ⟨i, hi, fun c hcm => ?_, hbefore⟩
    exact ge_of_not_less ho (hall _ hin).1 (hall c hcm).1
      (max_not_less ho pts (fun t ht => (hall t ht).1) c hcm)

theorem segment_tie_test :
    tieAnalyzer.candidates 2 "ab" "<S>" 0 (fun _ => none)
      = [⟨.fin (-2), ["a", "b"]⟩, ⟨.fin (-2), ["ab"]⟩] ∧
    tieAnalyzer.Segment "ab" = .ok ["a", "b"] ∧
    positiveAnalyzer.candidates 2 "ab" "<S>" 0 (fun _ => none)
      = [⟨.fin 1, ["a", "b"]⟩, ⟨.fin 0, ["ab"]⟩] := by
  refine ⟨by decide, by decide, by decide⟩

/-- C20, at the top call of `Segment` on `ab` with the tables of `tieAnalyzer`:
the candidates `a`, `b` and `ab` tie at -2 and the first is returned. -/
theorem shortest_head_wins_witness :
    Float64.Ordered IntFloat ∧ 1 ≤ tieAnalyzer.MaxTokenLength ∧
    ("ab" : String).length < 2 + 1 ∧ ("ab" : String) ≠ "" ∧
    tieAnalyzer.MemoSound (fun _ => none) ∧
    (∀ c ∈ tieAnalyzer.candidates 2 "ab" "<S>" 0 (fun _ => none),
      Float64.isNaN c.LogProb = false) ∧
    ∃ splits memo1,
      tieAnalyzer.Split "ab" = .ok splits ∧
      segmentLoop tieAnalyzer (tieAnalyzer.SegmentRecurse 2) "<S>" 0 splits [] (fun _ => none)
        = .ok (tieAnalyzer.candidates 2 "ab" "<S>" 0 (fun _ => none), memo1) ∧
      tieAnalyzer.SegmentRecurse (2 + 1) "ab" "<S>" 0 (fun _ => none)
        = .ok ((ProbTuples.Max (tieAnalyzer.candidates 2 "ab" "<S>" 0 (fun _ => none))).1,
            memo1.set "ab"
              (ProbTuples.Max (tieAnalyzer.candidates 2 "ab" "<S>" 0 (fun _ => none))).1) ∧
      tieAnalyzer.MemoSound
        (memo1.set "ab"
          (ProbTuples.Max (tieAnalyzer.candidates 2 "ab" "<S>" 0 (fun _ => none))).1) ∧
      (tieAnalyzer.candidates 2 "ab" "<S>" 0 (fun _ => none)).map (fun c => c.Tokens.head?)
        = splits.map (fun p => some p.1) ∧
      (∀ (i : Nat) (p : TwoStrings), splits[i]? = some p → p.1.length = i + 1) ∧
      (∀ c ∈ tieAnalyzer.candidates 2 "ab" "<S>" 0 (fun _ => none),
        joinTokens c.Tokens = "ab") ∧
      (∀ x ∈ tieAnalyzer.candidates 2 "ab" "<S>" 0 (fun _ => none),
        ∀ y ∈ tieAnalyzer.candidates 2 "ab" "<S>" 0 (fun _ => none),
        strLt (joinTokens x.Tokens) (joinTokens y.Tokens) = false ∧
        x.Less y = Float64.lt x.LogProb y.LogProb) ∧
      ∃ i : Nat,
        (tieAnalyzer.candidates 2 "ab" "<S>" 0 (fun _ => none))[i]?
          = some (ProbTuples.Max (tieAnalyzer.candidates 2 "ab" "<S>" 0 (fun _ => none))).1 ∧
        (∀ c ∈ tieAnalyzer.candidates 2 "ab" "<S>" 0 (fun _ => none),
          Float64.ge
            (ProbTuples.Max (tieAnalyzer.candidates 2 "ab" "<S>" 0 (fun _ => none))).1.LogProb
            c.LogProb = true) ∧
        ∀ (j : Nat) (c : ProbTuple IntFloat), j < i →
          (tieAnalyzer.candidates 2 "ab" "<S>" 0 (fun _ => none))[j]? = some c →
          Float64.lt c.LogProb
            (ProbTuples.Max (tieAnalyzer.candidates 2 "ab" "<S>" 0 (fun _ => none))).1.LogProb
            = true :=
  ⟨intFloat_ordered, by decide, by decide, by decide, memoSound_empty tieAnalyzer, by decide,
    shortest_head_wins intFloat_ordered tieAnalyzer (by decide) 2 "ab" "<S>" 0
      (fun _ => none) (by decide) (by decide) rfl (memoSound_empty tieAnalyzer) (by decide)⟩

end SegmentGo
